import Mathlib

/-!
Verification of the async Redis cache decorator of `lambda_framework/cache.py`.

The development embeds, as Lean definitions:

* the JSON codec `_encode` / `_decode` (`json.dumps(value, sort_keys=True)`
  and `json.loads`, floats represented by their decimal tokens);
* the default cache-key derivation `_default_key_func`, including the
  CPython hash algorithms it relies on (`hash` of `int`, of tuples and of
  frozensets);
* the wrapper state machine produced by `async_redis_cache`: the
  per-invocation read-through step (`wrapper`), the statistics accessor
  (`get_cache_info`), the invalidation operation (`cache_clear`) and the
  lazy client resolution (`_get_redis`).

Store behaviour (hit, absence, read error, write success or failure) is
supplied per invocation as an environment value, and the operations the
wrapper issues to the store are recorded in an explicit trace.
-/

/-! ## Decimal rendering of integers, as produced by Python `str(int)` -/

/-- Decimal digit characters of a natural number, most significant first.
This is the embedding of the decimal rendering used by `str(int)` and by
the f-string interpolation in `_default_key_func`. -/
def decChars (n : Nat) : List Char :=
  if _h : n < 10 then [Nat.digitChar n]
  else decChars (n / 10) ++ [Nat.digitChar (n % 10)]
termination_by n
decreasing_by exact Nat.div_lt_self (by omega) (by omega)

/-- Python decimal rendering of an integer (`str(i)`). -/
def intStr (i : Int) : String :=
  if i < 0 then "-" ++ String.mk (decChars i.natAbs) else String.mk (decChars i.natAbs)

/-! ## JSON values

The JSON-representable domain handled by `_encode`/`_decode`
(`JSONTypes = str | int | float | bool | None | list | dict` in the source).
Mappings are modelled as insertion-ordered association lists, which is how
Python dicts behave.

A Python float is one of the non-finite specials (`nan`, `inf`, `-inf`,
which `json.dumps` writes as `NaN`, `Infinity`, `-Infinity` and
`json.loads` reads back through `parse_constant=float`) or a finite
binary64 value. A finite float is represented by the parts of its decimal
token: sign, integer digits, fraction digits (empty when the token has no
fraction part) and optional exponent (sign and digits). On the encoding
side `repr` prints each finite float as its unique shortest such token, so
the token parts are a faithful carrier for the float it denotes; on the
decoding side `float(<token>)` maps the token to the float that token
denotes, represented here by the token parts as scanned (so the model
distinguishes some token spellings, such as `1e5`/`1e+5`, that denote the
same float; the spellings produced by `repr` are canonical and round-trip
exactly). The exponent marker is normalised to lowercase `e`, which
changes nothing the scanner or `float()` distinguishes. -/

inductive PyFloat where
  | nan
  | inf
  | ninf
  | fin (neg : Bool) (ip : List Char) (fp : List Char) (ex : Option (Option Bool × List Char))

/-- Exponent sign text: `some true` is `-`, `some false` is `+`, `none`
no sign. -/
def sgnChars : Option Bool → List Char
  | none => []
  | some true => ['-']
  | some false => ['+']

/-- Fraction part text: empty, or a dot followed by the digits. -/
def fracChars (fp : List Char) : List Char :=
  match fp with
  | [] => []
  | _ => '.' :: fp

/-- Exponent part text: empty, or `e`, the sign and the digits. -/
def expChars : Option (Option Bool × List Char) → List Char
  | none => []
  | some (sgn, ds) => 'e' :: (sgnChars sgn ++ ds)

/-- The text of a float: the special constants are written the way
`floatstr` inside `json.encoder` writes them, a finite float as its
token parts. -/
def floatChars : PyFloat → List Char
  | .nan => ['N', 'a', 'N']
  | .inf => ['I', 'n', 'f', 'i', 'n', 'i', 't', 'y']
  | .ninf => ['-', 'I', 'n', 'f', 'i', 'n', 'i', 't', 'y']
  | .fin neg ip fp ex => (if neg then ['-'] else []) ++ ip ++ fracChars fp ++ expChars ex

/-- Decimal digit test (the number scanner's digit class). -/
def isDigitCh (c : Char) : Bool := 48 ≤ c.toNat && c.toNat ≤ 57

/-- Integer-part digits per the scanner's number grammar: a single `0`,
or a nonzero digit followed by further digits. -/
def ipOk (l : List Char) : Bool :=
  match l with
  | [] => false
  | c :: t => if c = '0' then t.isEmpty else isDigitCh c && t.all isDigitCh

/-- Token parts that spell a float of the JSON number grammar
(`NUMBER_RE` with a fraction or exponent part, as classified by the
scanner); the special constants carry no condition. -/
def pyFloatOk : PyFloat → Bool
  | .fin _ ip fp ex =>
    ipOk ip && fp.all isDigitCh
      && (match ex with
          | none => true
          | some (_, ds) => !ds.isEmpty && ds.all isDigitCh)
      && (!fp.isEmpty || !ex.isNone)
  | _ => true

inductive JVal where
  | str (s : String)
  | int (n : Int)
  | float (f : PyFloat)
  | bool (b : Bool)
  | null
  | arr (elems : List JVal)
  | obj (entries : List (String × JVal))

/-- Ordering of mapping entries by key, as used by `sorted(dct.items())`
inside `json.dumps(..., sort_keys=True)`: Python compares strings by code
points, lexicographically, which is the lexicographic order on the
character data. (Python compares the full `(key, value)` tuples, but for a
dict the keys are distinct so the values are never consulted.) -/
def keyLe (a b : String × JVal) : Prop := a.1.data ≤ b.1.data

instance : DecidableRel keyLe := fun a b => inferInstanceAs (Decidable (a.1.data ≤ b.1.data))

/-! ## String escaping of `json.dumps` (default `ensure_ascii=True`) -/

/-- Lowercase hex digit, as used by the `\uXXXX` escapes of `json.dumps`. -/
def hexDig (n : Nat) : Char :=
  if n < 10 then Char.ofNat (48 + n) else Char.ofNat (87 + n)

/-- A `\uXXXX` escape for a code unit below `0x10000`. -/
def uEsc (n : Nat) : List Char :=
  ['\\', 'u', hexDig (n / 4096 % 16), hexDig (n / 256 % 16), hexDig (n / 16 % 16), hexDig (n % 16)]

/-- Escaping of one character by `py_encode_basestring_ascii`: `"` and `\`
get a backslash, the five short control escapes are used for
`\b \f \n \r \t`, printable ASCII is emitted literally, everything else
becomes `\uXXXX`, with a surrogate pair beyond the basic plane. -/
def escChar (c : Char) : List Char :=
  if c = '"' then ['\\', '"']
  else if c = '\\' then ['\\', '\\']
  else if c = '\x08' then ['\\', 'b']
  else if c = '\x0c' then ['\\', 'f']
  else if c = '\n' then ['\\', 'n']
  else if c = '\r' then ['\\', 'r']
  else if c = '\t' then ['\\', 't']
  else if 32 ≤ c.toNat ∧ c.toNat ≤ 126 then [c]
  else if c.toNat < 65536 then uEsc c.toNat
  else uEsc (55296 + (c.toNat - 65536) / 1024) ++ uEsc (56320 + (c.toNat - 65536) % 1024)

/-- Escape a character sequence. -/
def escList : List Char → List Char
  | [] => []
  | c :: rest => escChar c ++ escList rest

/-- Render a JSON string literal, quotes included. -/
def renderStr (s : String) : String := "\"" ++ String.mk (escList s.data) ++ "\""

/-- Join rendered items with the default `json.dumps` item separator. -/
def joinComma : List String → String
  | [] => ""
  | [a] => a
  | a :: rest => a ++ ", " ++ joinComma rest

/-! ## Canonicalisation and rendering (`json.dumps(value, sort_keys=True)`)

`json.dumps` with `sort_keys=True` renders every mapping with its entries
sorted by key. This is modelled in two phases with identical output:
`canon` recursively sorts every mapping of the value, and `render` prints
a value in the order given. `_encode` is their composition. -/

/-- Recursively sort every mapping of a value by key. -/
def canon : JVal → JVal
  | .str s => .str s
  | .int n => .int n
  | .float f => .float f
  | .bool b => .bool b
  | .null => .null
  | .arr l => .arr (l.attach.map fun x => canon x.1)
  | .obj l => .obj (List.insertionSort keyLe (l.attach.map fun x => (x.1.1, canon x.1.2)))
termination_by v => sizeOf v
decreasing_by
  · have h1 := List.sizeOf_lt_of_mem x.2
    simp only [JVal.arr.sizeOf_spec]
    omega
  · have h1 := List.sizeOf_lt_of_mem x.2
    have h2 : sizeOf x.1.2 < sizeOf x.1 := by
      obtain ⟨a, b⟩ := x.1
      simp only [Prod.mk.sizeOf_spec]
      omega
    simp only [JVal.obj.sizeOf_spec]
    omega

/-- Render a value as JSON text with the default separators
`(", ", ": ")` of `json.dumps`, in the entry order given. -/
def render : JVal → String
  | .str s => renderStr s
  | .int n => intStr n
  | .float f => String.mk (floatChars f)
  | .bool b => cond b ("true") ("false")
  | .null => "null"
  | .arr l => "[" ++ joinComma (l.attach.map fun x => render x.1) ++ "]"
  | .obj l => "\x7b" ++ joinComma (l.attach.map fun x => renderStr x.1.1 ++ ": " ++ render x.1.2) ++ "\x7d"
termination_by v => sizeOf v
decreasing_by
  · have h1 := List.sizeOf_lt_of_mem x.2
    simp only [JVal.arr.sizeOf_spec]
    omega
  · have h1 := List.sizeOf_lt_of_mem x.2
    have h2 : sizeOf x.1.2 < sizeOf x.1 := by
      obtain ⟨a, b⟩ := x.1
      simp only [Prod.mk.sizeOf_spec]
      omega
    simp only [JVal.obj.sizeOf_spec]
    omega

/-- The `_encode` helper of `cache.py`: `json.dumps(value, sort_keys=True)`.
Sorting each mapping at render time is realised as recursive sorting
(`canon`) followed by order-preserving rendering (`render`). -/
def _encode (v : JVal) : String := render (canon v)

/-! ## The JSON parser (`json.loads`, C scanner, `strict=True`) -/

/-- JSON whitespace, as in the scanner of the `json` module. -/
def isJsonWs (c : Char) : Bool := c = ' ' || c = '\t' || c = '\n' || c = '\r'

/-- Skip JSON whitespace. -/
def skipWs (l : List Char) : List Char := l.dropWhile isJsonWs

/-- Hex digit value, both cases accepted, as in the `\uXXXX` handling of
the C scanner. -/
def hexDigVal (c : Char) : Option Nat :=
  if 48 ≤ c.toNat ∧ c.toNat ≤ 57 then some (c.toNat - 48)
  else if 97 ≤ c.toNat ∧ c.toNat ≤ 102 then some (c.toNat - 87)
  else if 65 ≤ c.toNat ∧ c.toNat ≤ 70 then some (c.toNat - 55)
  else none

/-- Combined value of four hex digits, as read by the `\\uXXXX` handling
of the C scanner. -/
def hex4 (a b c d : Char) : Option Nat :=
  match hexDigVal a, hexDigVal b, hexDigVal c, hexDigVal d with
  | some x1, some x2, some x3, some x4 => some (x1 * 4096 + x2 * 256 + x3 * 16 + x4)
  | _, _, _, _ => none

/-- Scan the body of a JSON string up to the closing quote
(`scanstring`, strict mode): literal characters must not be control
characters, backslash escapes follow the escape table, `\uXXXX` escapes
denote UTF-16 code units and a high surrogate joins with an immediately
following low surrogate escape. A lone surrogate escape would produce a
string value outside the Unicode scalar values, which Lean strings cannot
hold; the parser rejects it (such text is never produced by `_encode`).
The fuel argument only bounds the recursion; every step consumes at least
one input character, so the fuel passed by the callers, one more than the
input length, is never exhausted. -/
def parseStrChars : Nat → List Char → Option (List Char × List Char)
  | 0, _ => none
  | _ + 1, [] => none
  | fuel + 1, c :: r =>
    if c = '"' then some ([], r)
    else if c = '\\' then
      match r with
      | [] => none
      | e :: r2 =>
        if e = '"' then (parseStrChars fuel r2).map (fun p => ('"' :: p.1, p.2))
        else if e = '\\' then (parseStrChars fuel r2).map (fun p => ('\\' :: p.1, p.2))
        else if e = '/' then (parseStrChars fuel r2).map (fun p => ('/' :: p.1, p.2))
        else if e = 'b' then (parseStrChars fuel r2).map (fun p => ('\x08' :: p.1, p.2))
        else if e = 'f' then (parseStrChars fuel r2).map (fun p => ('\x0c' :: p.1, p.2))
        else if e = 'n' then (parseStrChars fuel r2).map (fun p => ('\n' :: p.1, p.2))
        else if e = 'r' then (parseStrChars fuel r2).map (fun p => ('\r' :: p.1, p.2))
        else if e = 't' then (parseStrChars fuel r2).map (fun p => ('\t' :: p.1, p.2))
        else if e = 'u' then
          match r2 with
          | a :: b :: c2 :: d :: r3 =>
            match hex4 a b c2 d with
            | some n =>
              if 55296 ≤ n ∧ n < 56320 then
                match r3 with
                | '\\' :: 'u' :: a2 :: b2 :: c3 :: d2 :: r4 =>
                  match hex4 a2 b2 c3 d2 with
                  | some n2 =>
                    if 56320 ≤ n2 ∧ n2 < 57344 then
                      (parseStrChars fuel r4).map
                        (fun p => (Char.ofNat (65536 + (n - 55296) * 1024 + (n2 - 56320)) :: p.1, p.2))
                    else none
                  | none => none
                | _ => none
              else if 56320 ≤ n ∧ n < 57344 then none
              else (parseStrChars fuel r3).map (fun p => (Char.ofNat n :: p.1, p.2))
            | none => none
          | _ => none
        else none
    else if c.toNat < 32 then none
    else (parseStrChars fuel r).map (fun p => (c :: p.1, p.2))

/-- Longest digit run at the front of the input. -/
def spanDigits : List Char → List Char × List Char
  | [] => ([], [])
  | c :: r =>
    if isDigitCh c then
      let p := spanDigits r
      (c :: p.1, p.2)
    else ([], c :: r)

/-- Value of a digit run, most significant first. -/
def digitsToNat (cs : List Char) : Nat := cs.foldl (fun a c => 10 * a + (c.toNat - 48)) 0

/-- Integer-part digits of the number scanner: a single `0` or a nonzero
digit followed by further digits, returned together with the rest. -/
def parseIntPart (c : Char) (r : List Char) : Option (List Char × List Char) :=
  if c = '0' then some (['0'], r)
  else if isDigitCh c then
    let p := spanDigits r
    some (c :: p.1, p.2)
  else none

/-- Fraction part of the number scanner: a `.` followed by at least one
digit yields the fraction digits; otherwise nothing is consumed. -/
def parseFracPart (l : List Char) : List Char × List Char :=
  match l with
  | c :: r =>
    if c = '.' then
      match spanDigits r with
      | ([], _) => ([], l)
      | (ds, r2) => (ds, r2)
    else ([], l)
  | [] => ([], l)

/-- Exponent part of the number scanner: `e` or `E`, an optional sign and
at least one digit; with no digit the whole exponent candidate is rolled
back, exactly as the scanner rewinds to the start of the exponent. -/
def parseExpPart (l : List Char) : Option (Option Bool × List Char) × List Char :=
  match l with
  | c :: r =>
    if c = 'e' ∨ c = 'E' then
      match r with
      | s :: r2 =>
        if s = '+' then
          match spanDigits r2 with
          | ([], _) => (none, l)
          | (ds, r3) => (some (some false, ds), r3)
        else if s = '-' then
          match spanDigits r2 with
          | ([], _) => (none, l)
          | (ds, r3) => (some (some true, ds), r3)
        else
          match spanDigits r with
          | ([], _) => (none, l)
          | (ds, r3) => (some (none, ds), r3)
      | [] => (none, l)
    else (none, l)
  | [] => (none, l)

/-- After the integer part: scan fraction and exponent; with neither the
number is an integer (`parse_int`), otherwise a float built from the
scanned token parts (`parse_float` applied to `integer + frac + exp`). -/
def parseNumTail (neg : Bool) (ip : List Char) (r : List Char) : Option (JVal × List Char) :=
  match parseFracPart r with
  | (fp, r2) =>
    match parseExpPart r2 with
    | (ex, r3) =>
      if fp = [] ∧ ex = none then
        some (.int (if neg then -(digitsToNat ip : Int) else (digitsToNat ip : Int)), r3)
      else some (.float (.fin neg ip fp ex), r3)

/-- The number scanner (`_match_number` of the C scanner): optional sign,
integer part, then fraction/exponent classification. -/
def parseNumber (l : List Char) : Option (JVal × List Char) :=
  match l with
  | [] => none
  | c :: r =>
    if c = '-' then
      match r with
      | [] => none
      | c2 :: r2 =>
        match parseIntPart c2 r2 with
        | none => none
        | some (ip, r3) => parseNumTail true ip r3
    else
      match parseIntPart c r with
      | none => none
      | some (ip, r3) => parseNumTail false ip r3

/-- Write one pair into an association list the way `d[k] = v` writes into
a Python dict: replace in place if the key is present, append otherwise. -/
def objSet (l : List (String × JVal)) (k : String) (v : JVal) : List (String × JVal) :=
  match l with
  | [] => [(k, v)]
  | (k2, v2) :: t => if k2 = k then (k2, v) :: t else (k2, v2) :: objSet t k v

/-- Build a dict from scanned pairs in order. -/
def objFromPairs (ps : List (String × JVal)) : List (String × JVal) :=
  ps.foldl (fun acc p => objSet acc p.1 p.2) []

/-- Parser modes: a single value, the items of an array after `[`, the
members of an object after `{`. -/
inductive PMode where
  | top
  | elems
  | entries

/-- Result type of each parser mode. -/
def PMode.Out : PMode → Type
  | .top => JVal
  | .elems => List JVal
  | .entries => List (String × JVal)

/-- The recursive scanner (`scan_once` with `parse_array` / `parse_object`
of the C scanner). The fuel argument only bounds recursion depth; every
nesting level consumes at least one character, so the fuel chosen in
`_decode` can never be exhausted first. -/
def parseGo : Nat → (m : PMode) → List Char → Option (m.Out × List Char)
  | 0, _, _ => none
  | f + 1, .top, l =>
    match l with
    | [] => none
    | c :: r =>
      if c = '"' then (parseStrChars (r.length + 1) r).map (fun p => (JVal.str (String.mk p.1), p.2))
      else if c = '{' then
        match skipWs r with
        | '}' :: r2 => some (JVal.obj [], r2)
        | r2 => (parseGo f .entries r2).map (fun p => (JVal.obj (objFromPairs p.1), p.2))
      else if c = '[' then
        match skipWs r with
        | ']' :: r2 => some (JVal.arr [], r2)
        | r2 => (parseGo f .elems r2).map (fun p => (JVal.arr p.1, p.2))
      else if c = 'n' then
        match r with
        | 'u' :: 'l' :: 'l' :: r2 => some (JVal.null, r2)
        | _ => none
      else if c = 't' then
        match r with
        | 'r' :: 'u' :: 'e' :: r2 => some (JVal.bool true, r2)
        | _ => none
      else if c = 'f' then
        match r with
        | 'a' :: 'l' :: 's' :: 'e' :: r2 => some (JVal.bool false, r2)
        | _ => none
      else
        match parseNumber (c :: r) with
        | some p => some p
        | none =>
          if c = 'N' then
            match r with
            | 'a' :: 'N' :: r2 => some (JVal.float .nan, r2)
            | _ => none
          else if c = 'I' then
            match r with
            | 'n' :: 'f' :: 'i' :: 'n' :: 'i' :: 't' :: 'y' :: r2 => some (JVal.float .inf, r2)
            | _ => none
          else if c = '-' then
            match r with
            | 'I' :: 'n' :: 'f' :: 'i' :: 'n' :: 'i' :: 't' :: 'y' :: r2 =>
              some (JVal.float .ninf, r2)
            | _ => none
          else none
  | f + 1, .elems, l =>
    match parseGo f .top l with
    | none => none
    | some p =>
      match skipWs p.2 with
      | ',' :: r2 => (parseGo f .elems (skipWs r2)).map (fun q => (p.1 :: q.1, q.2))
      | ']' :: r2 => some ([p.1], r2)
      | _ => none
  | f + 1, .entries, l =>
    match l with
    | [] => none
    | c :: r =>
      if c = '"' then
        match parseStrChars (r.length + 1) r with
        | none => none
        | some pk =>
          match skipWs pk.2 with
          | ':' :: r2 =>
            match parseGo f .top (skipWs r2) with
            | none => none
            | some pv =>
              match skipWs pv.2 with
              | ',' :: r3 =>
                (parseGo f .entries (skipWs r3)).map
                  (fun q => ((String.mk pk.1, pv.1) :: q.1, q.2))
              | '}' :: r3 => some ([(String.mk pk.1, pv.1)], r3)
              | _ => none
          | _ => none
      else none

/-- The `_decode` helper of `cache.py`: `json.loads(encoded_value)`.
Leading whitespace is skipped, one value is scanned, and anything but
trailing whitespace is an error. -/
def _decode (s : String) : Option JVal :=
  let l := skipWs s.data
  match parseGo (2 * l.length + 2) .top l with
  | some p => if skipWs p.2 = [] then some p.1 else none
  | none => none

/-! ## The wrapper state machine of `async_redis_cache`

The decorator closes over a `CacheInfo` object, a set `_cache_keys` of
written keys, and a lazily resolved client `_redis_client`. Each call of
the wrapped function performs one read-through step. The store itself is
external: its behaviour during one invocation (read outcome, write
success) enters as part of the invocation record, and the operations the
wrapper issues to it are returned as a trace. -/

/-- A store client: either one handed in by the caller (`redis=` argument)
or one built by `Redis.from_url` from a URL. Client identity is the
constructor data; `_get_redis` caching means the same client value is kept
for the life of the wrapper. -/
inductive Client where
  | given (id : Nat)
  | fromUrl (url : String)
deriving DecidableEq

/-- Cache statistics, the `CacheInfo` dataclass. -/
structure CacheInfo where
  hits : Nat
  misses : Nat
  currsize : Nat
deriving DecidableEq

/-- Wrap-time configuration of the decorator: `redis`, `redis_url` and
`timeout` (`None` meaning no expiration). The `key`/`key_func` options
only shape the derived key string, which the step function below receives
ready-made, so they are modelled with the key derivation instead. -/
structure Config where
  redis : Option Client
  redis_url : Option String
  timeout : Option Nat
deriving DecidableEq

/-- The mutable closure state of one wrapper: the `cache_info` object, the
tracked-key set `_cache_keys` and the lazily initialised `_redis_client`. -/
structure WrapperState where
  cache_info : CacheInfo
  cache_keys : Finset String
  redis_client : Option Client
deriving DecidableEq

/-- State at wrap time: zero counters, no tracked keys, the client being
exactly the `redis` argument (possibly absent). -/
def initState (cfg : Config) : WrapperState :=
  { cache_info := { hits := 0, misses := 0, currsize := 0 }
    cache_keys := ∅
    redis_client := cfg.redis }

/-- Outcome of the store read of one invocation: the read raised, the key
was absent (`None`), or a string value was found. -/
inductive GetRes where
  | err
  | absent
  | found (s : String)
deriving DecidableEq

/-- Operations the wrapper issues to the store, in order. A `setx` carries
the expiration passed as `ex=`; `set` is a write without expiration;
`del` is the bulk delete of `cache_clear`. An operation appears in the
trace when it was issued, whether or not the store then failed it. -/
inductive StoreOp where
  | get (key : String)
  | setx (key val : String) (ex : Nat)
  | set (key val : String)
  | del (keys : Finset String)
deriving DecidableEq

/-- A Python value as seen by the wrapper: either JSON-representable, in
which case `json.dumps` succeeds, or not, in which case `_encode` raises
`TypeError`. -/
inductive PyVal where
  | json (j : JVal)
  | nonJson (id : Nat)

/-- The `_encode` call of the wrapper on a computed result: succeeds with
the canonical JSON text exactly on JSON-representable values. -/
def encodePy : PyVal → Option String
  | .json j => some (_encode j)
  | .nonJson _ => none

/-- The `_decode` call of the wrapper on a found store value. -/
def decodePy (s : String) : Option PyVal := (_decode s).map PyVal.json

/-- One invocation of the wrapped callable: the derived cache key for its
arguments, the value the wrapped callable would compute, and the store
behaviour met by this invocation (read outcome, write success). -/
structure Call where
  key : String
  fnRes : PyVal
  getRes : GetRes
  setOk : Bool

/-- Result of one invocation step: the value returned (or the
configuration error raised), the state after the call, the store
operations issued, and whether the wrapped callable was invoked. -/
structure StepOut where
  result : Except String PyVal
  state : WrapperState
  ops : List StoreOp
  fnCalled : Bool

/-- The message of the `ValueError` raised by `_get_redis`. -/
def cfgErrMsg : String := "Either redis or redis_url must be provided to async_redis_cache"

/-- The `_get_redis` helper: return the cached client if present,
otherwise build one from `redis_url`, otherwise raise `ValueError`. The
second component is the `_redis_client` cell after the call. -/
def get_redis (cfg : Config) (cur : Option Client) : Except String (Client × Option Client) :=
  match cur with
  | some c => .ok (c, some c)
  | none =>
    match cfg.redis_url with
    | some u => .ok (Client.fromUrl u, some (Client.fromUrl u))
    | none => .error cfgErrMsg

/-- The tail of the wrapper body from the `cache_info.misses += 1` line:
call the function, try to encode and store the result (with `ex=timeout`
when a timeout is configured), record the key only after a successful
write, swallow every store or encoding error, return the computed
result. `ops` are the operations already issued by the read attempt. -/
def missPath (cfg : Config) (c : Call) (st : WrapperState) (ops : List StoreOp) : StepOut :=
  let st1 := { st with cache_info := { st.cache_info with misses := st.cache_info.misses + 1 } }
  match encodePy c.fnRes with
  | none => { result := .ok c.fnRes, state := st1, ops := ops, fnCalled := true }
  | some enc =>
    let op := match cfg.timeout with
      | some t => StoreOp.setx c.key enc t
      | none => StoreOp.set c.key enc
    if c.setOk then
      { result := .ok c.fnRes
        state := { st1 with cache_keys := insert c.key st1.cache_keys }
        ops := ops ++ [op]
        fnCalled := true }
    else
      { result := .ok c.fnRes, state := st1, ops := ops ++ [op], fnCalled := true }

/-- One call of the wrapped function (the `wrapper` closure): resolve the
client (propagating the configuration error), issue the read, and then
either return the decoded hit (counting a hit as soon as a value is
found, before decoding), or fall through to the miss path on absence,
read error, or decode failure. -/
def wrapperStep (cfg : Config) (c : Call) (st : WrapperState) : StepOut :=
  match get_redis cfg st.redis_client with
  | .error e => { result := .error e, state := st, ops := [], fnCalled := false }
  | .ok (_, cl2) =>
    let st0 := { st with redis_client := cl2 }
    match c.getRes with
    | .found s =>
      let stHit := { st0 with cache_info := { st0.cache_info with hits := st0.cache_info.hits + 1 } }
      match decodePy s with
      | some v => { result := .ok v, state := stHit, ops := [StoreOp.get c.key], fnCalled := false }
      | none => missPath cfg c stHit [StoreOp.get c.key]
    | .absent => missPath cfg c st0 [StoreOp.get c.key]
    | .err => missPath cfg c st0 [StoreOp.get c.key]

/-- State after a sequence of invocations. -/
def runCalls (cfg : Config) (st : WrapperState) (calls : List Call) : WrapperState :=
  calls.foldl (fun s c => (wrapperStep cfg c s).state) st

/-- The `cache_info()` accessor (`get_cache_info`): write the tracked-key
count into `cache_info.currsize` and return the statistics object. The
second component is the wrapper state after the call. -/
def get_cache_info (st : WrapperState) : CacheInfo × WrapperState :=
  let info := { st.cache_info with currsize := st.cache_keys.card }
  (info, { st with cache_info := info })

/-- The `cache_clear()` operation: when keys are tracked, resolve the
client and issue one bulk delete for all of them, swallowing every error
(`delOk` tells whether the store delete succeeded; the result does not
depend on it); in every case clear the tracked keys and zero the hit and
miss counters. The second component is the trace of issued operations. -/
def cache_clear (cfg : Config) (delOk : Bool) (st : WrapperState) : WrapperState × List StoreOp :=
  if st.cache_keys = ∅ then
    ({ st with
        cache_keys := ∅
        cache_info := { st.cache_info with hits := 0, misses := 0 } }, [])
  else
    match get_redis cfg st.redis_client with
    | .error _ =>
      ({ st with
          cache_keys := ∅
          cache_info := { st.cache_info with hits := 0, misses := 0 } }, [])
    | .ok (_, cl2) =>
      ({ st with
          redis_client := cl2
          cache_keys := ∅
          cache_info := { st.cache_info with hits := 0, misses := 0 } },
       [StoreOp.del st.cache_keys])

/-- Wrapper states reachable from wrap time through the exposed
operations: invocations, statistics snapshots and invalidations. -/
inductive Reachable (cfg : Config) : WrapperState → Prop where
  | init : Reachable cfg (initState cfg)
  | step (c : Call) {st : WrapperState} :
      Reachable cfg st → Reachable cfg (wrapperStep cfg c st).state
  | info {st : WrapperState} :
      Reachable cfg st → Reachable cfg (get_cache_info st).2
  | clear (delOk : Bool) {st : WrapperState} :
      Reachable cfg st → Reachable cfg (cache_clear cfg delOk st).1

/-! ## The default key derivation

`_default_key_func` builds
`f"{func_module}:{func_name}:{hash((args, frozenset(kwargs.items())))}"`.
The CPython hash algorithms involved are embedded exactly: `hash` of an
`int` (reduction modulo the Mersenne prime `2^61 - 1`, with the `-1 → -2`
substitution), the xxHash-style tuple hash, and the shuffle/XOR frozenset
hash. All three work on 64-bit machine words, modelled as naturals below
`2^64`. String hashing (used for keyword argument names) is randomised
per process (`PYTHONHASHSEED`); it enters as a parameter that is fixed
within one process run. -/

/-- Interpret a signed 64-bit hash as a machine word. -/
def toU (i : Int) : Nat := (i % (18446744073709551616 : Int)).toNat

/-- Interpret a machine word as the signed 64-bit value CPython returns. -/
def toS (n : Nat) : Int :=
  if n < 9223372036854775808 then (n : Int) else (n : Int) - 18446744073709551616

/-- CPython `hash` of an `int`: the absolute value reduced modulo
`2^61 - 1`, negated for negatives, and `-1` replaced by `-2`. -/
def pyHashInt (n : Int) : Int :=
  let m : Nat := n.natAbs % 2305843009213693951
  let h : Int := if n < 0 then -(m : Int) else (m : Int)
  if h = -1 then -2 else h

/-- Rotate a 64-bit word left by 31 bits. -/
def rotl31 (x : Nat) : Nat := x % 8589934592 * 2147483648 + x / 8589934592

/-- One lane round of the CPython tuple hash (xxHash primes). -/
def xxRound (acc lane : Nat) : Nat :=
  rotl31 ((acc + lane * 14029467366897019727) % 18446744073709551616)
    * 11400714785074694791 % 18446744073709551616

/-- CPython tuple hash over the word values of the item hashes. -/
def tupleHashU (lanes : List Nat) : Nat :=
  let acc := lanes.foldl xxRound 2870177450012600261
  let acc2 := (acc + (lanes.length ^^^ (2870177450012600261 ^^^ 3527539))) % 18446744073709551616
  if acc2 = 18446744073709551615 then 1546275796 else acc2

/-- CPython tuple hash over signed item hashes. -/
def tupleHashI (items : List Int) : Int := toS (tupleHashU (items.map toU))

/-- The bit shuffle applied to each member hash by the frozenset hash. -/
def fsShuffle (h : Nat) : Nat :=
  ((h ^^^ 89869747) ^^^ (h <<< 16) % 18446744073709551616) * 3644798167 % 18446744073709551616

/-- CPython frozenset hash over the word values of the member hashes. The
XOR accumulation makes it independent of member order. -/
def frozensetHashU (es : List Nat) : Nat :=
  let h0 := es.foldl (fun a e => a ^^^ fsShuffle e) 0
  let h1 := h0 ^^^ ((es.length + 1) * 1927868237 % 18446744073709551616)
  let h2 := h1 ^^^ ((h1 >>> 11) ^^^ (h1 >>> 25))
  let h3 := (h2 * 69069 + 907133923) % 18446744073709551616
  if h3 = 18446744073709551615 then 590923713 else h3

/-- CPython frozenset hash over signed member hashes. -/
def frozensetHashI (items : List Int) : Int := toS (frozensetHashU (items.map toU))

/-- The hash `hash((args, frozenset(kwargs.items())))` computed by
`_default_key_func`, for integer-valued arguments: a keyword item
`(name, value)` is a pair whose hash is the tuple hash of the string hash
of the name and the int hash of the value; `hs` is the per-process string
hash. -/
def argsHash (hs : String → Int) (args : List Int) (kwargs : List (String × Int)) : Int :=
  tupleHashI [tupleHashI (args.map pyHashInt),
    frozensetHashI (kwargs.map fun p => tupleHashI [hs p.1, pyHashInt p.2])]

/-- The `_default_key_func` helper:
`f"{func_module}:{func_name}:{arg_hash}"` where `func_name` is the
qualified name. -/
def default_key_func (hs : String → Int) (func_module func_name : String)
    (args : List Int) (kwargs : List (String × Int)) : String :=
  func_module ++ ":" ++ func_name ++ ":" ++ intStr (argsHash hs args kwargs)

/-- The `_make_key` closure: apply the key function (the default one
here) and prepend the optional static `key` prefix. -/
def make_key (keyOpt : Option String) (base : String) : String :=
  match keyOpt with
  | some k => k ++ ":" ++ base
  | none => base

/-! ## Helper lemmas about the wrapper step -/

/-- A wrapper can resolve a client when one is cached or a URL is
configured. -/
def clientOk (cfg : Config) (st : WrapperState) : Prop :=
  st.redis_client.isSome ∨ cfg.redis_url.isSome

theorem get_redis_ok_of {cfg : Config} {cur : Option Client}
    (h : cur.isSome ∨ cfg.redis_url.isSome) :
    ∃ c, get_redis cfg cur = .ok (c, some c) := by
  cases cur with
  | some c => exact ⟨c, rfl⟩
  | none =>
    cases hu : cfg.redis_url with
    | some u => exact ⟨Client.fromUrl u, by simp [get_redis, hu]⟩
    | none =>
      rcases h with h | h
      · simp at h
      · rw [hu] at h
        simp at h

theorem missPath_result (cfg : Config) (c : Call) (st : WrapperState) (ops : List StoreOp) :
    (missPath cfg c st ops).result = Except.ok c.fnRes := by
  unfold missPath
  cases encodePy c.fnRes with
  | none => rfl
  | some enc => cases c.setOk <;> simp

theorem missPath_fnCalled (cfg : Config) (c : Call) (st : WrapperState) (ops : List StoreOp) :
    (missPath cfg c st ops).fnCalled = true := by
  unfold missPath
  cases encodePy c.fnRes with
  | none => rfl
  | some enc => cases c.setOk <;> simp

theorem missPath_misses (cfg : Config) (c : Call) (st : WrapperState) (ops : List StoreOp) :
    (missPath cfg c st ops).state.cache_info.misses = st.cache_info.misses + 1 := by
  unfold missPath
  cases encodePy c.fnRes with
  | none => rfl
  | some enc => cases c.setOk <;> simp

theorem missPath_hits (cfg : Config) (c : Call) (st : WrapperState) (ops : List StoreOp) :
    (missPath cfg c st ops).state.cache_info.hits = st.cache_info.hits := by
  unfold missPath
  cases encodePy c.fnRes with
  | none => rfl
  | some enc => cases c.setOk <;> simp

theorem missPath_client (cfg : Config) (c : Call) (st : WrapperState) (ops : List StoreOp) :
    (missPath cfg c st ops).state.redis_client = st.redis_client := by
  unfold missPath
  cases encodePy c.fnRes with
  | none => rfl
  | some enc => cases c.setOk <;> simp

theorem wrapperStep_client_some {cfg : Config} {st : WrapperState} {cl : Client}
    (c : Call) (h : st.redis_client = some cl) :
    (wrapperStep cfg c st).state.redis_client = some cl := by
  unfold wrapperStep
  rw [h]
  cases hg : c.getRes with
  | found s => cases hd : decodePy s <;> simp [get_redis, hd, missPath_client]
  | absent => simp [get_redis, missPath_client]
  | err => simp [get_redis, missPath_client]

/-! ## C2: the statistics accessor -/

/-- C2 (amended): calling the statistics accessor returns the current hit
count, miss count, and a `currsize` equal to the tracked-key set
cardinality at call time; it leaves the hit counter, the miss counter,
the tracked-key set and the client unchanged. It is not entirely free of
side effects, however: it writes the freshly computed cardinality into
the stored `currsize` field of the statistics object, so the wrapper
state after the call differs from the state before whenever that stored
field was stale. -/
theorem claim_C2_amended (st : WrapperState) :
    (get_cache_info st).1.hits = st.cache_info.hits ∧
    (get_cache_info st).1.misses = st.cache_info.misses ∧
    (get_cache_info st).1.currsize = st.cache_keys.card ∧
    (get_cache_info st).2.cache_info.hits = st.cache_info.hits ∧
    (get_cache_info st).2.cache_info.misses = st.cache_info.misses ∧
    (get_cache_info st).2.cache_keys = st.cache_keys ∧
    (get_cache_info st).2.redis_client = st.redis_client ∧
    (get_cache_info st).2.cache_info.currsize = st.cache_keys.card := by
  refine ⟨rfl, rfl, rfl, rfl, rfl, rfl, rfl, rfl⟩

/-- C2 (counterexample): at the wrapper state with zero counters, a stale
stored `currsize` of `0` and one tracked key, the state after the
accessor returns differs from the state before: the accessor wrote
`currsize = 1` into the statistics object. -/
theorem claim_C2_counterexample :
    (get_cache_info { cache_info := { hits := 0, misses := 0, currsize := 0 }, cache_keys := {"k"}, redis_client := none }).2
      ≠ { cache_info := { hits := 0, misses := 0, currsize := 0 }, cache_keys := {"k"}, redis_client := none } := by
  intro h
  have h2 := congrArg (fun st => st.cache_info.currsize) h
  simp [get_cache_info] at h2

/-! ## C3: decode failure of a found value -/

/-- C3: when the store read returns a value whose decode fails, the call
does not raise: the wrapped callable is invoked and its result is
returned to the caller, exactly as when the store read itself raises. -/
theorem claim_C3 (cfg : Config) (c : Call) (st : WrapperState) (s : String)
    (hok : st.redis_client.isSome ∨ cfg.redis_url.isSome)
    (hfound : c.getRes = GetRes.found s) (hdec : decodePy s = none) :
    (wrapperStep cfg c st).result = Except.ok c.fnRes ∧
    (wrapperStep cfg c st).fnCalled = true ∧
    (wrapperStep cfg c st).result = (wrapperStep cfg { c with getRes := GetRes.err } st).result ∧
    (wrapperStep cfg c st).fnCalled = (wrapperStep cfg { c with getRes := GetRes.err } st).fnCalled := by
  obtain ⟨cl, hcl⟩ := @get_redis_ok_of cfg st.redis_client hok
  have hm : ∀ st2 ops, (missPath cfg { c with getRes := GetRes.err } st2 ops) = missPath cfg c st2 ops := by
    intro st2 ops
    unfold missPath
    rfl
  unfold wrapperStep
  rw [hcl, hfound]
  simp only [hdec, hm]
  refine ⟨missPath_result _ _ _ _, missPath_fnCalled _ _ _ _, ?_, ?_⟩
  · rw [missPath_result, missPath_result]
  · rw [missPath_fnCalled, missPath_fnCalled]

/-- C3 (witness): a concrete decode-failure invocation, against a wrapper
with a supplied client and the stored text `"x"`, which is not valid
JSON. -/
theorem claim_C3_witness :
    (wrapperStep { redis := some (Client.given 0), redis_url := none, timeout := some 60 }
        { key := "k", fnRes := PyVal.json JVal.null, getRes := GetRes.found "x", setOk := true }
        (initState { redis := some (Client.given 0), redis_url := none, timeout := some 60 })).result
      = Except.ok (PyVal.json JVal.null) ∧
    (wrapperStep { redis := some (Client.given 0), redis_url := none, timeout := some 60 }
        { key := "k", fnRes := PyVal.json JVal.null, getRes := GetRes.found "x", setOk := true }
        (initState { redis := some (Client.given 0), redis_url := none, timeout := some 60 })).fnCalled = true := by
  have h := claim_C3 { redis := some (Client.given 0), redis_url := none, timeout := some 60 }
    { key := "k", fnRes := PyVal.json JVal.null, getRes := GetRes.found "x", setOk := true }
    (initState { redis := some (Client.given 0), redis_url := none, timeout := some 60 })
    "x" (Or.inl rfl) rfl rfl
  exact ⟨h.1, h.2.1⟩

/-! ## C5: store read errors are fail-open -/

/-- C5: when the store read raises, the error is not propagated: the
invocation proceeds as a miss, incrementing the miss counter, invoking
the wrapped callable and returning its result. -/
theorem claim_C5 (cfg : Config) (c : Call) (st : WrapperState)
    (hok : st.redis_client.isSome ∨ cfg.redis_url.isSome)
    (herr : c.getRes = GetRes.err) :
    (wrapperStep cfg c st).result = Except.ok c.fnRes ∧
    (wrapperStep cfg c st).fnCalled = true ∧
    (wrapperStep cfg c st).state.cache_info.misses = st.cache_info.misses + 1 ∧
    (wrapperStep cfg c st).state.cache_info.hits = st.cache_info.hits := by
  obtain ⟨cl, hcl⟩ := @get_redis_ok_of cfg st.redis_client hok
  unfold wrapperStep
  rw [hcl, herr]
  exact ⟨missPath_result _ _ _ _, missPath_fnCalled _ _ _ _, missPath_misses _ _ _ _,
    missPath_hits _ _ _ _⟩

/-- C5 (witness): a concrete read-error invocation against a wrapper with
a supplied client. -/
theorem claim_C5_witness :
    (wrapperStep { redis := some (Client.given 0), redis_url := none, timeout := some 60 }
        { key := "k", fnRes := PyVal.json (JVal.int 7), getRes := GetRes.err, setOk := true }
        (initState { redis := some (Client.given 0), redis_url := none, timeout := some 60 })).result
      = Except.ok (PyVal.json (JVal.int 7)) ∧
    (wrapperStep { redis := some (Client.given 0), redis_url := none, timeout := some 60 }
        { key := "k", fnRes := PyVal.json (JVal.int 7), getRes := GetRes.err, setOk := true }
        (initState { redis := some (Client.given 0), redis_url := none, timeout := some 60 })).state.cache_info.misses
      = 0 + 1 := by
  have h := claim_C5 { redis := some (Client.given 0), redis_url := none, timeout := some 60 }
    { key := "k", fnRes := PyVal.json (JVal.int 7), getRes := GetRes.err, setOk := true }
    (initState { redis := some (Client.given 0), redis_url := none, timeout := some 60 })
    (Or.inl rfl) rfl
  exact ⟨h.1, h.2.2.1⟩

/-! ## C7: configuration error and client reuse -/

theorem get_redis_ok_shape {cfg : Config} {cur : Option Client} {p : Client × Option Client}
    (h : get_redis cfg cur = .ok p) : p.2 = some p.1 := by
  unfold get_redis at h
  cases cur with
  | some c =>
    simp at h
    rw [← h]
  | none =>
    cases hu : cfg.redis_url with
    | some u =>
      rw [hu] at h
      simp at h
      rw [← h]
    | none =>
      rw [hu] at h
      simp at h

/-- In a wrapper configured with neither a client nor a URL, the client
cell stays empty forever. -/
theorem reach_client_none {cfg : Config} {st : WrapperState}
    (hr : cfg.redis = none) (hu : cfg.redis_url = none) :
    Reachable cfg st → st.redis_client = none := by
  intro h
  induction h with
  | init => simp [initState, hr]
  | step c hst ih =>
    unfold wrapperStep
    simp [get_redis, ih, hu]
  | info hst ih => simpa [get_cache_info] using ih
  | clear delOk hst ih =>
    unfold cache_clear
    simp [get_redis, ih, hu]

/-- C7: with neither a client nor a connection URL supplied, every
invocation fails with the configuration `ValueError`, which is propagated
(never swallowed): nothing is issued to any store, the wrapped callable
is not invoked and the state is unchanged. With a URL supplied, the
client is constructed from it at first use; and once a client is cached
it is the one reused, unchanged, by every later invocation, invalidation
or snapshot. -/
theorem claim_C7 :
    (∀ (cfg : Config) (st : WrapperState) (c : Call),
      cfg.redis = none → cfg.redis_url = none → Reachable cfg st →
        (wrapperStep cfg c st).result = Except.error cfgErrMsg ∧
        (wrapperStep cfg c st).fnCalled = false ∧
        (wrapperStep cfg c st).state = st ∧
        (wrapperStep cfg c st).ops = []) ∧
    (∀ (cfg : Config) (u : String) (st : WrapperState) (c : Call),
      cfg.redis_url = some u → st.redis_client = none →
        (wrapperStep cfg c st).state.redis_client = some (Client.fromUrl u)) ∧
    (∀ (cfg : Config) (st : WrapperState) (c : Call) (cl : Client) (delOk : Bool),
      st.redis_client = some cl →
        (wrapperStep cfg c st).state.redis_client = some cl ∧
        (cache_clear cfg delOk st).1.redis_client = some cl ∧
        (get_cache_info st).2.redis_client = some cl) := by
  refine ⟨?_, ?_, ?_⟩
  · intro cfg st c hr hu hreach
    have hcl := reach_client_none hr hu hreach
    unfold wrapperStep
    simp [get_redis, hcl, hu]
  · intro cfg u st c hu hcl
    unfold wrapperStep
    rw [hcl]
    simp only [get_redis, hu]
    cases hg : c.getRes with
    | found s => cases hd : decodePy s <;> simp [hd, missPath_client]
    | absent => simp [missPath_client]
    | err => simp [missPath_client]
  · intro cfg st c cl delOk hcl
    refine ⟨wrapperStep_client_some c hcl, ?_, ?_⟩
    · unfold cache_clear
      rw [hcl]
      simp only [get_redis]
      split
      · simp
      · simp
    · simp [get_cache_info, hcl]

/-- C7 (witness): a wrapper with neither client nor URL raises the
configuration error at its initial state, and a wrapper with a URL
constructs the client on first use and then reuses it. -/
theorem claim_C7_witness :
    ((wrapperStep { redis := none, redis_url := none, timeout := some 60 }
        { key := "k", fnRes := PyVal.json JVal.null, getRes := GetRes.absent, setOk := true }
        (initState { redis := none, redis_url := none, timeout := some 60 })).result
      = Except.error cfgErrMsg) ∧
    ((wrapperStep { redis := none, redis_url := some "redis://h", timeout := some 60 }
        { key := "k", fnRes := PyVal.json JVal.null, getRes := GetRes.absent, setOk := true }
        (initState { redis := none, redis_url := some "redis://h", timeout := some 60 })).state.redis_client
      = some (Client.fromUrl "redis://h")) ∧
    ((wrapperStep { redis := none, redis_url := none, timeout := some 60 }
        { key := "k2", fnRes := PyVal.json JVal.null, getRes := GetRes.err, setOk := false }
        { cache_info := { hits := 0, misses := 0, currsize := 0 }, cache_keys := ∅, redis_client := some (Client.given 3) }).state.redis_client
      = some (Client.given 3)) := by
  refine ⟨(claim_C7.1 _ _ _ rfl rfl Reachable.init).1, claim_C7.2.1 _ "redis://h" _ _ rfl rfl, ?_⟩
  exact (claim_C7.2.2 { redis := none, redis_url := none, timeout := some 60 }
    { cache_info := { hits := 0, misses := 0, currsize := 0 }, cache_keys := ∅, redis_client := some (Client.given 3) }
    { key := "k2", fnRes := PyVal.json JVal.null, getRes := GetRes.err, setOk := false }
    (Client.given 3) true rfl).1

/-! ## C8 and C10: the store write of a miss -/

/-- The invocation takes the miss path: the read found nothing, raised,
or returned an undecodable value. -/
def missCase (c : Call) : Prop :=
  c.getRes = GetRes.absent ∨ c.getRes = GetRes.err ∨
    ∃ s, c.getRes = GetRes.found s ∧ decodePy s = none

theorem wrapperStep_miss {cfg : Config} {c : Call} {st : WrapperState}
    (hok : st.redis_client.isSome ∨ cfg.redis_url.isSome) (hmiss : missCase c) :
    ∃ stX : WrapperState, wrapperStep cfg c st = missPath cfg c stX [StoreOp.get c.key] ∧
      stX.cache_keys = st.cache_keys := by
  obtain ⟨cl, hcl⟩ := @get_redis_ok_of cfg st.redis_client hok
  unfold wrapperStep
  rw [hcl]
  rcases hmiss with h | h | ⟨s, h, hd⟩
  · rw [h]
    exact ⟨_, rfl, rfl⟩
  · rw [h]
    exact ⟨_, rfl, rfl⟩
  · rw [h]
    simp only [hd]
    exact ⟨_, rfl, rfl⟩

theorem missPath_encNone {c : Call} (cfg : Config) (st : WrapperState) (ops : List StoreOp)
    (henc : encodePy c.fnRes = none) :
    (missPath cfg c st ops).ops = ops ∧ (missPath cfg c st ops).state.cache_keys = st.cache_keys := by
  unfold missPath
  rw [henc]
  exact ⟨rfl, rfl⟩

theorem missPath_encSome_ops {c : Call} {e : String} (cfg : Config) (st : WrapperState)
    (ops : List StoreOp) (henc : encodePy c.fnRes = some e) :
    (missPath cfg c st ops).ops
      = ops ++ [(match cfg.timeout with
          | some t => StoreOp.setx c.key e t
          | none => StoreOp.set c.key e)] := by
  unfold missPath
  rw [henc]
  cases c.setOk <;> simp

theorem missPath_encSome_keys {c : Call} {e : String} (cfg : Config) (st : WrapperState)
    (ops : List StoreOp) (henc : encodePy c.fnRes = some e) :
    (missPath cfg c st ops).state.cache_keys
      = (if c.setOk then insert c.key st.cache_keys else st.cache_keys) := by
  unfold missPath
  rw [henc]
  cases h : c.setOk <;> simp

/-- C8: on a miss whose result encodes successfully, the store write is
issued with the configured expiration when a timeout is set and with no
expiration when the timeout is `None`; the key joins the tracked-key set
exactly when the write succeeds, and a failed write leaves the set
unchanged. -/
theorem claim_C8 (cfg : Config) (c : Call) (st : WrapperState) (e : String)
    (hok : st.redis_client.isSome ∨ cfg.redis_url.isSome) (hmiss : missCase c)
    (henc : encodePy c.fnRes = some e) :
    (∀ t, cfg.timeout = some t →
      (wrapperStep cfg c st).ops = [StoreOp.get c.key, StoreOp.setx c.key e t]) ∧
    (cfg.timeout = none →
      (wrapperStep cfg c st).ops = [StoreOp.get c.key, StoreOp.set c.key e]) ∧
    (c.setOk = true →
      (wrapperStep cfg c st).state.cache_keys = insert c.key st.cache_keys) ∧
    (c.setOk = false →
      (wrapperStep cfg c st).state.cache_keys = st.cache_keys) := by
  obtain ⟨stX, hstep, hkeys⟩ := wrapperStep_miss hok hmiss
  rw [hstep]
  refine ⟨?_, ?_, ?_, ?_⟩
  · intro t ht
    rw [missPath_encSome_ops cfg stX _ henc, ht]
    simp
  · intro ht
    rw [missPath_encSome_ops cfg stX _ henc, ht]
    simp
  · intro hset
    rw [missPath_encSome_keys cfg stX _ henc, hset, if_pos rfl, hkeys]
  · intro hset
    rw [missPath_encSome_keys cfg stX _ henc, hset]
    simp [hkeys]

/-- C8 (witness): a concrete miss against an empty store, with a
configured timeout of 3600 and a successful write, and one with a failed
write. -/
theorem claim_C8_witness :
    ((wrapperStep { redis := some (Client.given 0), redis_url := none, timeout := some 3600 }
        { key := "k", fnRes := PyVal.json JVal.null, getRes := GetRes.absent, setOk := true }
        (initState { redis := some (Client.given 0), redis_url := none, timeout := some 3600 })).ops
      = [StoreOp.get "k", StoreOp.setx "k" (_encode JVal.null) 3600]) ∧
    ((wrapperStep { redis := some (Client.given 0), redis_url := none, timeout := some 3600 }
        { key := "k", fnRes := PyVal.json JVal.null, getRes := GetRes.absent, setOk := true }
        (initState { redis := some (Client.given 0), redis_url := none, timeout := some 3600 })).state.cache_keys
      = insert "k" ∅) := by
  have h := claim_C8 { redis := some (Client.given 0), redis_url := none, timeout := some 3600 }
    { key := "k", fnRes := PyVal.json JVal.null, getRes := GetRes.absent, setOk := true }
    (initState { redis := some (Client.given 0), redis_url := none, timeout := some 3600 })
    (_encode JVal.null) (Or.inl rfl) (Or.inl rfl) rfl
  exact ⟨h.1 3600 rfl, h.2.2.1 rfl⟩

/-- C10: when the computed result of a miss is not JSON-serializable, the
`TypeError` from the encode is swallowed: the result is still returned,
no write is issued for the key, and the tracked-key set is unchanged. -/
theorem claim_C10 (cfg : Config) (c : Call) (st : WrapperState)
    (hok : st.redis_client.isSome ∨ cfg.redis_url.isSome) (hmiss : missCase c)
    (henc : encodePy c.fnRes = none) :
    (wrapperStep cfg c st).result = Except.ok c.fnRes ∧
    (wrapperStep cfg c st).ops = [StoreOp.get c.key] ∧
    (wrapperStep cfg c st).state.cache_keys = st.cache_keys := by
  obtain ⟨stX, hstep, hkeys⟩ := wrapperStep_miss hok hmiss
  rw [hstep]
  obtain ⟨hops, hk⟩ := missPath_encNone cfg stX [StoreOp.get c.key] henc
  exact ⟨missPath_result _ _ _ _, hops, by rw [hk, hkeys]⟩

/-- C10 (witness): a concrete miss computing a non-JSON-serializable
result. -/
theorem claim_C10_witness :
    ((wrapperStep { redis := some (Client.given 0), redis_url := none, timeout := some 60 }
        { key := "k", fnRes := PyVal.nonJson 0, getRes := GetRes.absent, setOk := true }
        (initState { redis := some (Client.given 0), redis_url := none, timeout := some 60 })).result
      = Except.ok (PyVal.nonJson 0)) ∧
    ((wrapperStep { redis := some (Client.given 0), redis_url := none, timeout := some 60 }
        { key := "k", fnRes := PyVal.nonJson 0, getRes := GetRes.absent, setOk := true }
        (initState { redis := some (Client.given 0), redis_url := none, timeout := some 60 })).ops
      = [StoreOp.get "k"]) ∧
    ((wrapperStep { redis := some (Client.given 0), redis_url := none, timeout := some 60 }
        { key := "k", fnRes := PyVal.nonJson 0, getRes := GetRes.absent, setOk := true }
        (initState { redis := some (Client.given 0), redis_url := none, timeout := some 60 })).state.cache_keys
      = (∅ : Finset String)) := by
  exact claim_C10 { redis := some (Client.given 0), redis_url := none, timeout := some 60 }
    { key := "k", fnRes := PyVal.nonJson 0, getRes := GetRes.absent, setOk := true }
    (initState { redis := some (Client.given 0), redis_url := none, timeout := some 60 })
    (Or.inl rfl) (Or.inl rfl) rfl

/-! ## C1: the counter-sum invariant -/

/-- An invocation takes the decode-failure path: the read found a value
that `_decode` rejects. On this path the wrapper increments the hit
counter (before decoding) and then also the miss counter. -/
def decodeFailure (c : Call) : Bool :=
  match c.getRes with
  | GetRes.found s => (decodePy s).isNone
  | _ => false

theorem wrapperStep_hit {cfg : Config} {c : Call} {st : WrapperState} {s : String} {v : PyVal}
    (hok : clientOk cfg st) (hg : c.getRes = GetRes.found s) (hd : decodePy s = some v) :
    (wrapperStep cfg c st).state.cache_info.hits = st.cache_info.hits + 1 ∧
    (wrapperStep cfg c st).state.cache_info.misses = st.cache_info.misses ∧
    (wrapperStep cfg c st).state.cache_keys = st.cache_keys ∧
    (wrapperStep cfg c st).state.redis_client.isSome ∧
    (wrapperStep cfg c st).result = Except.ok v ∧
    (wrapperStep cfg c st).fnCalled = false := by
  obtain ⟨cl, hcl⟩ := @get_redis_ok_of cfg st.redis_client hok
  unfold wrapperStep
  rw [hcl, hg]
  simp [hd]

theorem wrapperStep_miss2 {cfg : Config} {c : Call} {st : WrapperState}
    (hok : clientOk cfg st) (hmiss : missCase c) :
    ∃ stX : WrapperState, wrapperStep cfg c st = missPath cfg c stX [StoreOp.get c.key] ∧
      stX.cache_keys = st.cache_keys ∧
      stX.cache_info.misses = st.cache_info.misses ∧
      stX.redis_client.isSome ∧
      stX.cache_info.hits = st.cache_info.hits + (if decodeFailure c then 1 else 0) := by
  obtain ⟨cl, hcl⟩ := @get_redis_ok_of cfg st.redis_client hok
  unfold wrapperStep
  rw [hcl]
  rcases hmiss with h | h | ⟨s, h, hd⟩
  · rw [h]
    refine ⟨_, rfl, rfl, rfl, rfl, ?_⟩
    simp [decodeFailure, h]
  · rw [h]
    refine ⟨_, rfl, rfl, rfl, rfl, ?_⟩
    simp [decodeFailure, h]
  · rw [h]
    simp only [hd]
    refine ⟨_, rfl, rfl, rfl, rfl, ?_⟩
    simp [decodeFailure, h, hd]

theorem step_counts (cfg : Config) (c : Call) (st : WrapperState)
    (hok : clientOk cfg st) :
    (wrapperStep cfg c st).state.cache_info.hits + (wrapperStep cfg c st).state.cache_info.misses
        = st.cache_info.hits + st.cache_info.misses + (if decodeFailure c then 2 else 1) ∧
      clientOk cfg (wrapperStep cfg c st).state := by
  by_cases hm : missCase c
  · obtain ⟨stX, hstep, hkeys, hmis, hcl, hhits⟩ := wrapperStep_miss2 hok hm
    rw [hstep]
    constructor
    · rw [missPath_misses, missPath_hits, hmis, hhits]
      cases hdf : decodeFailure c <;> simp [hdf] <;> omega
    · rw [clientOk, missPath_client]
      exact Or.inl hcl
  · obtain ⟨s, v, hg, hd⟩ : ∃ s v, c.getRes = GetRes.found s ∧ decodePy s = some v := by
      cases hg : c.getRes with
      | found s =>
        cases hd : decodePy s with
        | some v => exact ⟨s, v, rfl, hd⟩
        | none => exact absurd (Or.inr (Or.inr ⟨s, hg, hd⟩)) hm
      | absent => exact absurd (Or.inl hg) hm
      | err => exact absurd (Or.inr (Or.inl hg)) hm
    have hdf : decodeFailure c = false := by
      simp [decodeFailure, hg, hd]
    obtain ⟨hh, hmis, hk, hcl, _, _⟩ := wrapperStep_hit hok hg hd
    refine ⟨?_, Or.inl hcl⟩
    rw [hh, hmis]
    simp [hdf]
    try omega

theorem runCalls_counts (cfg : Config) (calls : List Call) :
    ∀ st : WrapperState, clientOk cfg st →
      (runCalls cfg st calls).cache_info.hits + (runCalls cfg st calls).cache_info.misses
        = st.cache_info.hits + st.cache_info.misses + calls.length
            + calls.countP decodeFailure := by
  induction calls with
  | nil => intro st hok; simp [runCalls]
  | cons c rest ih =>
    intro st hok
    obtain ⟨hsum, hok2⟩ := step_counts cfg c st hok
    have hrun : runCalls cfg st (c :: rest) = runCalls cfg (wrapperStep cfg c st).state rest := rfl
    rw [hrun, ih _ hok2, hsum, List.countP_cons]
    cases hdf : decodeFailure c <;> simp [hdf] <;> omega

/-- C1 (amended): over any sequence of invocations of a wired wrapper
with zero invalidations, the sum of the hit and miss counters equals the
number of invocations plus the number of invocations that took the
decode-failure path. On a hit, a miss or a store-read error the sum grows
by one, but a decode failure of a found value increments both counters:
the hit counter is incremented as soon as a value is found, before the
decode is attempted, and the miss counter again on the fall-through. The
sum equals the invocation count exactly when no decode failure occurs. -/
theorem claim_C1_amended (cfg : Config) (calls : List Call)
    (hok : cfg.redis.isSome ∨ cfg.redis_url.isSome) :
    (runCalls cfg (initState cfg) calls).cache_info.hits
        + (runCalls cfg (initState cfg) calls).cache_info.misses
      = calls.length + calls.countP decodeFailure := by
  have h0 : clientOk cfg (initState cfg) := by
    rcases hok with h | h
    · exact Or.inl (by simp [initState, clientOk]; exact h)
    · exact Or.inr h
  have := runCalls_counts cfg calls (initState cfg) h0
  simpa [initState] using this

/-- C1 (witness): a two-invocation run, one ordinary miss and one hit,
where the sum of the counters is the invocation count since no decode
failure occurred. -/
theorem claim_C1_witness :
    (runCalls { redis := some (Client.given 0), redis_url := none, timeout := some 60 }
          (initState { redis := some (Client.given 0), redis_url := none, timeout := some 60 })
          [{ key := "k", fnRes := PyVal.json (JVal.int 7), getRes := GetRes.absent, setOk := true },
           { key := "k", fnRes := PyVal.json (JVal.int 7), getRes := GetRes.found "7", setOk := true }]).cache_info.hits
      + (runCalls { redis := some (Client.given 0), redis_url := none, timeout := some 60 }
          (initState { redis := some (Client.given 0), redis_url := none, timeout := some 60 })
          [{ key := "k", fnRes := PyVal.json (JVal.int 7), getRes := GetRes.absent, setOk := true },
           { key := "k", fnRes := PyVal.json (JVal.int 7), getRes := GetRes.found "7", setOk := true }]).cache_info.misses
      = 2 + 0 := by
  exact claim_C1_amended { redis := some (Client.given 0), redis_url := none, timeout := some 60 }
    [{ key := "k", fnRes := PyVal.json (JVal.int 7), getRes := GetRes.absent, setOk := true },
     { key := "k", fnRes := PyVal.json (JVal.int 7), getRes := GetRes.found "7", setOk := true }]
    (Or.inl rfl)

/-- C1 (counterexample): a single invocation that finds the stored text
`"x"`, which fails to decode, leaves `hits = 1` and `misses = 1`: the
counter sum is `2`, not the invocation count `1`. -/
theorem claim_C1_counterexample :
    (runCalls { redis := some (Client.given 0), redis_url := none, timeout := some 60 }
          (initState { redis := some (Client.given 0), redis_url := none, timeout := some 60 })
          [{ key := "k", fnRes := PyVal.json JVal.null, getRes := GetRes.found "x", setOk := true }]).cache_info.hits
      + (runCalls { redis := some (Client.given 0), redis_url := none, timeout := some 60 }
          (initState { redis := some (Client.given 0), redis_url := none, timeout := some 60 })
          [{ key := "k", fnRes := PyVal.json JVal.null, getRes := GetRes.found "x", setOk := true }]).cache_info.misses
      ≠ 1 := by
  decide

/-! ## C6: invalidation -/

theorem cache_clear_keys (cfg : Config) (delOk : Bool) (st : WrapperState) :
    (cache_clear cfg delOk st).1.cache_keys = ∅ := by
  unfold cache_clear
  split
  · rfl
  · cases get_redis cfg st.redis_client <;> simp

/-- After any invocation in which the client resolved, a client is
cached. -/
theorem wrapperStep_client_isSome {cfg : Config} {c : Call} {st0 : WrapperState}
    {p : Client × Option Client} (hg : get_redis cfg st0.redis_client = Except.ok p) :
    (wrapperStep cfg c st0).state.redis_client.isSome := by
  have hshape := get_redis_ok_shape hg
  obtain ⟨a, b⟩ := p
  simp only at hshape
  subst hshape
  unfold wrapperStep
  rw [hg]
  cases hgr : c.getRes with
  | found s => cases hd : decodePy s <;> simp [hd, missPath_client]
  | absent => simp [missPath_client]
  | err => simp [missPath_client]

/-- Along reachable states, a nonempty tracked-key set implies a cached
client: keys are only recorded after a successful write, for which the
client had resolved. -/
theorem reach_keys_client {cfg : Config} {st : WrapperState} (h : Reachable cfg st) :
    st.cache_keys ≠ ∅ → st.redis_client.isSome := by
  induction h with
  | init => intro hk; simp [initState] at hk
  | @step c st0 hst ih =>
    intro hk
    cases hg : get_redis cfg st0.redis_client with
    | error e =>
      have heq : wrapperStep cfg c st0
          = { result := Except.error e, state := st0, ops := [], fnCalled := false } := by
        unfold wrapperStep
        rw [hg]
      rw [heq] at hk ⊢
      exact ih hk
    | ok p => exact wrapperStep_client_isSome hg
  | info hst ih =>
    intro hk
    exact ih hk
  | clear delOk hst ih =>
    intro hk
    rw [cache_clear_keys] at hk
    simp at hk

/-- C6: at every reachable wrapper state, invalidation issues one bulk
delete covering exactly the tracked keys precisely when the tracked-key
set is nonempty; any store error from that delete is swallowed (the
resulting state does not depend on whether the delete succeeded); and in
every case the tracked-key set is cleared and the hit and miss counters
reset to zero, so a subsequent statistics snapshot reports
`currsize = 0`. -/
theorem claim_C6 (cfg : Config) (delOk : Bool) (st : WrapperState)
    (hre : Reachable cfg st) :
    (st.cache_keys ≠ ∅ → (cache_clear cfg delOk st).2 = [StoreOp.del st.cache_keys]) ∧
    (st.cache_keys = ∅ → (cache_clear cfg delOk st).2 = []) ∧
    (cache_clear cfg delOk st).1.cache_keys = ∅ ∧
    (cache_clear cfg delOk st).1.cache_info.hits = 0 ∧
    (cache_clear cfg delOk st).1.cache_info.misses = 0 ∧
    (cache_clear cfg true st).1 = (cache_clear cfg false st).1 ∧
    (get_cache_info (cache_clear cfg delOk st).1).1.currsize = 0 := by
  have hcurr : (get_cache_info (cache_clear cfg delOk st).1).1.currsize = 0 := by
    simp [get_cache_info, cache_clear_keys]
  by_cases hk : st.cache_keys = ∅
  · refine ⟨fun h => absurd hk h, fun _ => ?_, cache_clear_keys cfg delOk st, ?_, ?_, rfl, hcurr⟩
    · simp [cache_clear, hk]
    · simp [cache_clear, hk]
    · simp [cache_clear, hk]
  · have hcl : st.redis_client.isSome := reach_keys_client hre hk
    obtain ⟨cl, hcleq⟩ := Option.isSome_iff_exists.mp hcl
    refine ⟨fun _ => ?_, fun h => absurd h hk, cache_clear_keys cfg delOk st, ?_, ?_, rfl, hcurr⟩
    · simp [cache_clear, hk, hcleq, get_redis]
    · simp [cache_clear, hk, hcleq, get_redis]
    · simp [cache_clear, hk, hcleq, get_redis]

/-- C6 (witness): after one miss with a successful write, the state has
one tracked key; invalidation at that reachable state issues the bulk
delete of that key and resets the statistics. -/
theorem claim_C6_witness :
    ((wrapperStep { redis := some (Client.given 0), redis_url := none, timeout := some 60 }
        { key := "k", fnRes := PyVal.json (JVal.int 7), getRes := GetRes.absent, setOk := true }
        (initState { redis := some (Client.given 0), redis_url := none, timeout := some 60 })).state.cache_keys ≠ ∅ →
      (cache_clear { redis := some (Client.given 0), redis_url := none, timeout := some 60 } true
        (wrapperStep { redis := some (Client.given 0), redis_url := none, timeout := some 60 }
          { key := "k", fnRes := PyVal.json (JVal.int 7), getRes := GetRes.absent, setOk := true }
          (initState { redis := some (Client.given 0), redis_url := none, timeout := some 60 })).state).2
        = [StoreOp.del (wrapperStep { redis := some (Client.given 0), redis_url := none, timeout := some 60 }
            { key := "k", fnRes := PyVal.json (JVal.int 7), getRes := GetRes.absent, setOk := true }
            (initState { redis := some (Client.given 0), redis_url := none, timeout := some 60 })).state.cache_keys]) ∧
    (cache_clear { redis := some (Client.given 0), redis_url := none, timeout := some 60 } true
        (wrapperStep { redis := some (Client.given 0), redis_url := none, timeout := some 60 }
          { key := "k", fnRes := PyVal.json (JVal.int 7), getRes := GetRes.absent, setOk := true }
          (initState { redis := some (Client.given 0), redis_url := none, timeout := some 60 })).state).1.cache_keys = ∅ ∧
    (get_cache_info (cache_clear { redis := some (Client.given 0), redis_url := none, timeout := some 60 } true
        (wrapperStep { redis := some (Client.given 0), redis_url := none, timeout := some 60 }
          { key := "k", fnRes := PyVal.json (JVal.int 7), getRes := GetRes.absent, setOk := true }
          (initState { redis := some (Client.given 0), redis_url := none, timeout := some 60 })).state).1).1.currsize = 0 := by
  have h := claim_C6 { redis := some (Client.given 0), redis_url := none, timeout := some 60 } true
    (wrapperStep { redis := some (Client.given 0), redis_url := none, timeout := some 60 }
      { key := "k", fnRes := PyVal.json (JVal.int 7), getRes := GetRes.absent, setOk := true }
      (initState { redis := some (Client.given 0), redis_url := none, timeout := some 60 })).state
    (Reachable.step _ Reachable.init)
  exact ⟨h.1, h.2.2.1, h.2.2.2.2.2.2⟩

/-! ## C4: the default key derivation -/

theorem decChars_ne_nil (n : Nat) : decChars n ≠ [] := by
  unfold decChars
  split <;> simp

theorem digitChar_isDigit : ∀ d : Nat, d < 10 → isDigitCh (Nat.digitChar d) = true := by
  decide

theorem decChars_digit : ∀ n : Nat, ∀ c ∈ decChars n, isDigitCh c = true := by
  intro n
  induction n using Nat.strong_induction_on with
  | _ n ih =>
    intro c hc
    unfold decChars at hc
    split at hc
    · rename_i h
      simp at hc
      subst hc
      exact digitChar_isDigit n h
    · rename_i h
      rw [List.mem_append] at hc
      rcases hc with hc | hc
      · exact ih (n / 10) (Nat.div_lt_self (by omega) (by omega)) c hc
      · simp at hc
        subst hc
        exact digitChar_isDigit (n % 10) (Nat.mod_lt _ (by omega))

theorem digitChar_inj : ∀ a : Nat, a < 10 → ∀ b : Nat, b < 10 →
    Nat.digitChar a = Nat.digitChar b → a = b := by
  decide

theorem decChars_small {n : Nat} (h : n < 10) : decChars n = [Nat.digitChar n] := by
  rw [decChars, dif_pos h]

theorem decChars_large {n : Nat} (h : ¬ n < 10) :
    decChars n = decChars (n / 10) ++ [Nat.digitChar (n % 10)] := by
  rw [decChars]
  exact dif_neg h

theorem decChars_inj : ∀ a b : Nat, decChars a = decChars b → a = b := by
  intro a
  induction a using Nat.strong_induction_on with
  | _ a ih =>
    intro b h
    by_cases ha : a < 10 <;> by_cases hb : b < 10
    · rw [decChars_small ha, decChars_small hb] at h
      simp at h
      exact digitChar_inj a ha b hb h
    · rw [decChars_small ha, decChars_large hb] at h
      have hlen := congrArg List.length h
      simp at hlen
      have hne := decChars_ne_nil (b / 10)
      cases hd : decChars (b / 10) with
      | nil => exact absurd hd hne
      | cons x t => rw [hd] at hlen; simp at hlen
    · rw [decChars_large ha, decChars_small hb] at h
      have hlen := congrArg List.length h
      simp at hlen
      have hne := decChars_ne_nil (a / 10)
      cases hd : decChars (a / 10) with
      | nil => exact absurd hd hne
      | cons x t => rw [hd] at hlen; simp at hlen
    · rw [decChars_large ha, decChars_large hb] at h
      rw [← List.concat_eq_append, ← List.concat_eq_append, List.concat_inj] at h
      have h1 := ih (a / 10) (Nat.div_lt_self (by omega) (by omega)) (b / 10) h.1
      have h2 := digitChar_inj (a % 10) (Nat.mod_lt _ (by omega)) (b % 10) (Nat.mod_lt _ (by omega)) h.2
      omega

theorem intStr_inj : ∀ i j : Int, intStr i = intStr j → i = j := by
  intro i j h
  unfold intStr at h
  have hdata := congrArg String.data h
  by_cases hi : i < 0 <;> by_cases hj : j < 0
  · rw [if_pos hi, if_pos hj] at hdata
    simp only [String.data_append] at hdata
    simp at hdata
    have := decChars_inj _ _ hdata
    omega
  · rw [if_pos hi, if_neg hj] at hdata
    simp only [String.data_append] at hdata
    have hmem : '-' ∈ decChars j.natAbs := by
      rw [← hdata]
      simp
    have := decChars_digit _ _ hmem
    simp [isDigitCh] at this
  · rw [if_neg hi, if_pos hj] at hdata
    simp only [String.data_append] at hdata
    have hmem : '-' ∈ decChars i.natAbs := by
      rw [hdata]
      simp
    have := decChars_digit _ _ hmem
    simp [isDigitCh] at this
  · rw [if_neg hi, if_neg hj] at hdata
    simp at hdata
    have := decChars_inj _ _ hdata
    omega

theorem string_append_cancel_left (p x y : String) (h : p ++ x = p ++ y) : x = y := by
  have hd := congrArg String.data h
  simp only [String.data_append] at hd
  exact String.ext (List.append_cancel_left hd)

theorem default_key_func_hash_inj (hs : String → Int) (m q : String)
    (args args2 : List Int) (kw kw2 : List (String × Int))
    (h : default_key_func hs m q args kw = default_key_func hs m q args2 kw2) :
    argsHash hs args kw = argsHash hs args2 kw2 := by
  unfold default_key_func at h
  rw [String.append_assoc, String.append_assoc, String.append_assoc,
    String.append_assoc, String.append_assoc, String.append_assoc] at h
  have h1 := string_append_cancel_left _ _ _ h
  have h2 := string_append_cancel_left _ _ _ h1
  have h3 := string_append_cancel_left _ _ _ h2
  have h4 := string_append_cancel_left _ _ _ h3
  exact intStr_inj _ _ h4


theorem foldl_xor_shuffle_perm {l1 l2 : List Nat} (h : l1.Perm l2) (a : Nat) :
    l1.foldl (fun x e => x ^^^ fsShuffle e) a = l2.foldl (fun x e => x ^^^ fsShuffle e) a := by
  haveI : RightCommutative fun x e : Nat => x ^^^ fsShuffle e := ⟨by
    intro b a1 a2
    show b ^^^ fsShuffle a1 ^^^ fsShuffle a2 = b ^^^ fsShuffle a2 ^^^ fsShuffle a1
    rw [Nat.xor_assoc, Nat.xor_assoc, Nat.xor_comm (fsShuffle a1)]⟩
  exact h.foldl_eq a

/-- The frozenset hash does not depend on member order. -/
theorem frozensetHashI_perm {l1 l2 : List Int} (h : l1.Perm l2) :
    frozensetHashI l1 = frozensetHashI l2 := by
  unfold frozensetHashI frozensetHashU
  rw [foldl_xor_shuffle_perm (h.map toU) 0, (h.map toU).length_eq]

/-- C4 (amended): the default key derivation is deterministic within a
process run — equal positional arguments with keyword arguments equal up
to ordering give the identical key string, built from the module path,
the qualified name and the argument hash; and distinct arguments give
distinct keys whenever their CPython argument hashes differ, which holds
in particular for `key(f, 1)` versus `key(f, 2)`. Distinctness is not
universal, however: arguments whose CPython hashes collide (such as the
positional argument `0` versus `2^61 - 1`) produce identical keys. -/
theorem claim_C4_amended :
    (∀ (hs : String → Int) (m q : String) (args : List Int) (kw1 kw2 : List (String × Int)),
      kw1.Perm kw2 →
        default_key_func hs m q args kw1 = default_key_func hs m q args kw2) ∧
    (∀ (hs : String → Int) (m q : String) (args args2 : List Int)
        (kw kw2 : List (String × Int)),
      argsHash hs args kw ≠ argsHash hs args2 kw2 →
        default_key_func hs m q args kw ≠ default_key_func hs m q args2 kw2) ∧
    (∀ (hs : String → Int) (m q : String),
      default_key_func hs m q [1] [] ≠ default_key_func hs m q [2] []) := by
  refine ⟨?_, ?_, ?_⟩
  · intro hs m q args kw1 kw2 hperm
    unfold default_key_func argsHash
    rw [frozensetHashI_perm (hperm.map fun p => tupleHashI [hs p.1, pyHashInt p.2])]
  · intro hs m q args args2 kw kw2 hne heq
    exact hne (default_key_func_hash_inj hs m q args args2 kw kw2 heq)
  · intro hs m q
    have hne : argsHash hs [1] [] ≠ argsHash hs [2] [] := by
      show tupleHashI [tupleHashI [pyHashInt 1], frozensetHashI []]
        ≠ tupleHashI [tupleHashI [pyHashInt 2], frozensetHashI []]
      decide
    exact fun heq => hne (default_key_func_hash_inj hs m q [1] [2] [] [] heq)

/-- C4 (witness): determinism at a concrete pair of reordered keyword
argument lists, and the concrete sensitivity instance
`key(f, 1) != key(f, 2)`. -/
theorem claim_C4_witness :
    (default_key_func (fun _ => 0) "m" "f" [] [("a", 1), ("b", 2)]
      = default_key_func (fun _ => 0) "m" "f" [] [("b", 2), ("a", 1)]) ∧
    (default_key_func (fun _ => 0) "m" "f" [1] [] ≠ default_key_func (fun _ => 0) "m" "f" [2] []) := by
  constructor
  · exact claim_C4_amended.1 (fun _ => 0) "m" "f" [] [("a", 1), ("b", 2)] [("b", 2), ("a", 1)]
      (List.Perm.swap ("b", 2) ("a", 1) [])
  · exact claim_C4_amended.2.2 (fun _ => 0) "m" "f"

/-- C4 (counterexample): hash collisions defeat universal key
distinctness. CPython hashes integers modulo `2^61 - 1`, so `0` and
`2^61 - 1` hash alike, and the derived keys coincide for the distinct
positional arguments `0` and `2^61 - 1`, and likewise for the distinct
keyword argument values `x=0` and `x=2^61 - 1`. -/
theorem claim_C4_counterexample :
    ((0 : Int) ≠ 2305843009213693951 ∧
      default_key_func (fun _ => 0) "m" "f" [0] []
        = default_key_func (fun _ => 0) "m" "f" [2305843009213693951] []) ∧
    (default_key_func (fun _ => 0) "m" "f" [] [("x", 0)]
        = default_key_func (fun _ => 0) "m" "f" [] [("x", 2305843009213693951)]) := by
  refine ⟨⟨by decide, ?_⟩, ?_⟩
  · unfold default_key_func
    rw [show argsHash (fun _ => 0) [0] [] = argsHash (fun _ => 0) [2305843009213693951] [] from by decide]
  · unfold default_key_func
    rw [show argsHash (fun _ => 0) [] [("x", 0)]
        = argsHash (fun _ => 0) [] [("x", 2305843009213693951)] from by decide]

/-! ## C9: round trip and canonical encoding

`Wf` states that every mapping of a value has pairwise-distinct keys —
automatic for values that come from Python dicts. `KeyPermEq` is the
Python value equality on the JSON domain: structural equality except that
mapping entries may appear in any order. -/

/-- Every mapping of the value has distinct keys and well-formed
values, and every finite float carries well-formed token parts. -/
inductive Wf : JVal → Prop where
  | str (s : String) : Wf (.str s)
  | int (n : Int) : Wf (.int n)
  | float (f : PyFloat) : pyFloatOk f = true → Wf (.float f)
  | bool (b : Bool) : Wf (.bool b)
  | null : Wf .null
  | arr (l : List JVal) : (∀ v ∈ l, Wf v) → Wf (.arr l)
  | obj (l : List (String × JVal)) :
      (l.map Prod.fst).Nodup → (∀ p ∈ l, Wf p.2) → Wf (.obj l)

/-- No `NaN` anywhere in the value: `NaN` is the one JSON-representable
value that is not `==`-equal to itself, so it is the one value on which
any equational round-trip statement fails. -/
inductive NanFree : JVal → Prop where
  | str (s : String) : NanFree (.str s)
  | int (n : Int) : NanFree (.int n)
  | float (f : PyFloat) : ¬f = PyFloat.nan → NanFree (.float f)
  | bool (b : Bool) : NanFree (.bool b)
  | null : NanFree .null
  | arr (l : List JVal) : (∀ v ∈ l, NanFree v) → NanFree (.arr l)
  | obj (l : List (String × JVal)) : (∀ p ∈ l, NanFree p.2) → NanFree (.obj l)

/-- Equality up to reordering of mapping entries, at every nesting level:
the relation Python `==` induces on decoded JSON values. `NaN` is not
related to itself (`nan != nan` in IEEE comparison, which Python `==`
follows); an object on the left is related to an object on the right when
its entries can be mapped pointwise (equal keys, related values) to a
list that is a permutation of the right entries. -/
inductive KeyPermEq : JVal → JVal → Prop where
  | str (s : String) : KeyPermEq (.str s) (.str s)
  | int (n : Int) : KeyPermEq (.int n) (.int n)
  | flt (f : PyFloat) : ¬f = PyFloat.nan → KeyPermEq (.float f) (.float f)
  | bool (b : Bool) : KeyPermEq (.bool b) (.bool b)
  | null : KeyPermEq .null .null
  | arr (l1 l2 : List JVal) :
      List.Forall₂ KeyPermEq l1 l2 → KeyPermEq (.arr l1) (.arr l2)
  | obj (l1 l3 l2 : List (String × JVal)) :
      l1.map Prod.fst = l3.map Prod.fst →
      List.Forall₂ KeyPermEq (l1.map Prod.snd) (l3.map Prod.snd) →
      l3.Perm l2 → KeyPermEq (.obj l1) (.obj l2)

theorem canon_arr (l : List JVal) : canon (.arr l) = .arr (l.map canon) := by
  rw [canon]
  rw [List.attach_map_val l canon]

theorem canon_obj (l : List (String × JVal)) :
    canon (.obj l) = .obj (List.insertionSort keyLe (l.map fun p => (p.1, canon p.2))) := by
  rw [canon]
  rw [List.attach_map_val l (fun p => (p.1, canon p.2))]

theorem render_arr (l : List JVal) :
    render (.arr l) = "[" ++ joinComma (l.map render) ++ "]" := by
  rw [render]
  rw [List.attach_map_val l render]

theorem render_obj (l : List (String × JVal)) :
    render (.obj l) = "\x7b" ++ joinComma (l.map fun p => renderStr p.1 ++ ": " ++ render p.2) ++ "\x7d" := by
  rw [render]
  rw [List.attach_map_val l (fun p => renderStr p.1 ++ ": " ++ render p.2)]

theorem canon_str (s : String) : canon (.str s) = .str s := by rw [canon]

theorem canon_int (n : Int) : canon (.int n) = .int n := by rw [canon]

theorem canon_bool (b : Bool) : canon (.bool b) = .bool b := by rw [canon]

theorem canon_null : canon .null = .null := by rw [canon]

theorem canon_float (f : PyFloat) : canon (.float f) = .float f := by rw [canon]

theorem render_float (f : PyFloat) : render (.float f) = String.mk (floatChars f) := by
  rw [render]

theorem sizeOf_mem_arr {l : List JVal} {a : JVal} (h : a ∈ l) :
    sizeOf a < sizeOf (JVal.arr l) := by
  have h1 := List.sizeOf_lt_of_mem h
  simp only [JVal.arr.sizeOf_spec]
  omega

theorem sizeOf_mem_obj {l : List (String × JVal)} {p : String × JVal} (h : p ∈ l) :
    sizeOf p.2 < sizeOf (JVal.obj l) := by
  have h1 := List.sizeOf_lt_of_mem h
  have h2 : sizeOf p.2 < sizeOf p := by
    obtain ⟨a, b⟩ := p
    simp only [Prod.mk.sizeOf_spec]
    omega
  simp only [JVal.obj.sizeOf_spec]
  omega

theorem keyPermEq_canon (v : JVal) (hnf : NanFree v) : KeyPermEq v (canon v) := by
  suffices main : ∀ (n : Nat) (v : JVal), sizeOf v ≤ n → NanFree v → KeyPermEq v (canon v) from
    main (sizeOf v) v (le_refl _) hnf
  intro n
  induction n with
  | zero => intro v hv; cases v <;> simp_arith at hv
  | succ n ih =>
    intro v hv hnf
    cases v with
    | str s => rw [canon_str]; exact .str s
    | int m => rw [canon_int]; exact .int m
    | float f =>
      rw [canon_float]
      cases hnf with
      | float _ h => exact .flt f h
    | bool b => rw [canon_bool]; exact .bool b
    | null => rw [canon_null]; exact .null
    | arr l =>
      have hnm : ∀ x ∈ l, NanFree x := by
        cases hnf with
        | arr _ h => exact h
      rw [canon_arr]
      refine .arr l (l.map canon) ?_
      rw [List.forall₂_map_right_iff, List.forall₂_same]
      intro x hx
      exact ih x (by have := sizeOf_mem_arr hx; omega) (hnm x hx)
    | obj l =>
      have hnm : ∀ p ∈ l, NanFree p.2 := by
        cases hnf with
        | obj _ h => exact h
      rw [canon_obj]
      refine .obj l (l.map fun p => (p.1, canon p.2)) _ ?_ ?_ ?_
      · simp
      · simp only [List.map_map]
        rw [List.forall₂_map_right_iff]
        have : ∀ p q : String × JVal,
            ((Prod.snd ∘ fun p : String × JVal => (p.1, canon p.2)) q) = canon q.2 := by
          intro p q; rfl
        rw [List.forall₂_map_left_iff]
        rw [List.forall₂_same]
        intro p hp
        exact ih p.2 (by have := sizeOf_mem_obj hp; omega) (hnm p hp)
      · exact (List.perm_insertionSort keyLe _).symm

instance : IsTotal (String × JVal) keyLe := ⟨fun a b => le_total a.1.data b.1.data⟩

instance : IsTrans (String × JVal) keyLe := ⟨fun _ _ _ hab hbc => le_trans hab hbc⟩

theorem canon_wf {v : JVal} (h : Wf v) : Wf (canon v) := by
  suffices main : ∀ (n : Nat) (v : JVal), sizeOf v ≤ n → Wf v → Wf (canon v) from
    main (sizeOf v) v (le_refl _) h
  intro n
  induction n with
  | zero => intro v hv; cases v <;> simp_arith at hv
  | succ n ih =>
    intro v hv hw
    cases v with
    | str s => rw [canon_str]; exact hw
    | int m => rw [canon_int]; exact hw
    | float f => rw [canon_float]; exact hw
    | bool b => rw [canon_bool]; exact hw
    | null => rw [canon_null]; exact hw
    | arr l =>
      rw [canon_arr]
      refine Wf.arr _ ?_
      intro x hx
      rw [List.mem_map] at hx
      obtain ⟨a, ha, rfl⟩ := hx
      cases hw with
      | arr _ hmem => exact ih a (by have := sizeOf_mem_arr ha; omega) (hmem a ha)
    | obj l =>
      rw [canon_obj]
      have hperm : (List.insertionSort keyLe (l.map fun p => (p.1, canon p.2))).Perm
          (l.map fun p => (p.1, canon p.2)) := List.perm_insertionSort keyLe _
      cases hw with
      | obj _ hnd hmem =>
        refine Wf.obj _ ?_ ?_
        · have hkeys : ((l.map fun p => (p.1, canon p.2)).map Prod.fst) = l.map Prod.fst := by
            simp
          have : ((List.insertionSort keyLe (l.map fun p => (p.1, canon p.2))).map Prod.fst).Perm
              (l.map Prod.fst) := by
            rw [← hkeys]
            exact hperm.map Prod.fst
          exact hnd.perm this.symm
        · intro p hp
          have hp2 : p ∈ l.map fun p : String × JVal => (p.1, canon p.2) := hperm.mem_iff.mp hp
          rw [List.mem_map] at hp2
          obtain ⟨q, hq, rfl⟩ := hp2
          exact ih q.2 (by have := sizeOf_mem_obj hq; omega) (hmem q hq)

theorem sorted_perm_nodupkeys_eq :
    ∀ a b : List (String × JVal), a.Perm b → a.Sorted keyLe → b.Sorted keyLe →
      (a.map Prod.fst).Nodup → a = b := by
  intro a
  induction a with
  | nil => intro b hp _ _ _; exact (hp.nil_eq).symm ▸ rfl
  | cons x ta ih =>
    intro b hp hsa hsb hnd
    cases b with
    | nil => exact absurd hp.symm.nil_eq (by simp)
    | cons y tb =>
      have hxy : x = y := by
        by_contra hne
        have hxb : x ∈ y :: tb := hp.mem_iff.mp (by simp)
        have hyb : y ∈ x :: ta := hp.symm.mem_iff.mp (by simp)
        have hxtb : x ∈ tb := by
          rcases hxb with _ | h
          · exact absurd rfl hne
          · assumption
        have hyta : y ∈ ta := by
          rcases hyb with _ | h
          · exact absurd rfl (fun hh => hne hh.symm)
          · assumption
        have h1 : keyLe x y := (List.sorted_cons.mp hsa).1 y hyta
        have h2 : keyLe y x := (List.sorted_cons.mp hsb).1 x hxtb
        have hkeq : x.1.data = y.1.data := le_antisymm h1 h2
        have : x.1 ∈ ta.map Prod.fst := by
          rw [List.mem_map]
          exact ⟨y, hyta, by rw [← String.ext hkeq.symm]⟩
        rw [List.map_cons, List.nodup_cons] at hnd
        exact hnd.1 this
      subst hxy
      have hptl := hp.cons_inv
      rw [List.map_cons, List.nodup_cons] at hnd
      rw [ih tb hptl (List.sorted_cons.mp hsa).2 (List.sorted_cons.mp hsb).2 hnd.2]

theorem insertionSort_eq_of_perm_ndk {a b : List (String × JVal)} (hp : a.Perm b)
    (hnd : (a.map Prod.fst).Nodup) :
    List.insertionSort keyLe a = List.insertionSort keyLe b := by
  have hpp : (List.insertionSort keyLe a).Perm (List.insertionSort keyLe b) :=
    (List.perm_insertionSort keyLe a).trans (hp.trans (List.perm_insertionSort keyLe b).symm)
  have hnd2 : ((List.insertionSort keyLe a).map Prod.fst).Nodup :=
    hnd.perm ((List.perm_insertionSort keyLe a).map Prod.fst).symm
  exact sorted_perm_nodupkeys_eq _ _ hpp (List.sorted_insertionSort keyLe a)
    (List.sorted_insertionSort keyLe b) hnd2

theorem canon_eq_of_keyPermEq {v w : JVal} (hw : Wf v) (hk : KeyPermEq v w) :
    canon v = canon w := by
  suffices main : ∀ (n : Nat) (v w : JVal), sizeOf v ≤ n → Wf v → KeyPermEq v w →
      canon v = canon w from main (sizeOf v) v w (le_refl _) hw hk
  intro n
  induction n with
  | zero => intro v w hv; cases v <;> simp_arith at hv
  | succ n ih =>
    intro v w hv hw hk
    cases hk with
    | str s => rfl
    | int m => rfl
    | flt f h => rfl
    | bool b => rfl
    | null => rfl
    | arr l1 l2 hf =>
      rw [canon_arr, canon_arr]
      have hmem : ∀ x ∈ l1, sizeOf x ≤ n ∧ Wf x := by
        intro x hx
        cases hw with
        | arr _ hm => exact ⟨by have := sizeOf_mem_arr hx; omega, hm x hx⟩
      have : ∀ (a b : List JVal), List.Forall₂ KeyPermEq a b →
          (∀ x ∈ a, sizeOf x ≤ n ∧ Wf x) → a.map canon = b.map canon := by
        intro a
        induction a with
        | nil => intro b hf2 _; cases hf2; rfl
        | cons x t iht =>
          intro b hf2 hx
          cases hf2 with
          | cons hxy htf =>
            have hx1 := hx x (by simp)
            simp only [List.map_cons]
            rw [ih x _ hx1.1 hx1.2 hxy, iht _ htf (fun z hz => hx z (by simp [hz]))]
      rw [this l1 l2 hf hmem]
    | obj l1 l3 l2 hkeys hvals hperm =>
      rw [canon_obj, canon_obj]
      have hnd : (l1.map Prod.fst).Nodup := by
        cases hw with
        | obj _ hn _ => exact hn
      have hmem : ∀ p ∈ l1, sizeOf p.2 ≤ n ∧ Wf p.2 := by
        intro p hp
        cases hw with
        | obj _ _ hm => exact ⟨by have := sizeOf_mem_obj hp; omega, hm p hp⟩
      have hmapeq : ∀ (a b : List (String × JVal)), a.map Prod.fst = b.map Prod.fst →
          List.Forall₂ KeyPermEq (a.map Prod.snd) (b.map Prod.snd) →
          (∀ p ∈ a, sizeOf p.2 ≤ n ∧ Wf p.2) →
          (a.map fun p => (p.1, canon p.2)) = b.map fun p => (p.1, canon p.2) := by
        intro a
        induction a with
        | nil =>
          intro b hke _ _
          cases b with
          | nil => rfl
          | cons q tb => simp at hke
        | cons p t iht =>
          intro b hke hva hp
          cases b with
          | nil => simp at hke
          | cons q tb =>
            simp only [List.map_cons, List.cons.injEq] at hke hva ⊢
            cases hva with
            | cons hpq htf =>
              have hp1 := hp p (by simp)
              refine ⟨?_, iht tb hke.2 htf (fun z hz => hp z (by simp [hz]))⟩
              rw [Prod.mk.injEq]
              exact ⟨hke.1, ih p.2 q.2 hp1.1 hp1.2 hpq⟩
      rw [hmapeq l1 l3 hkeys hvals hmem]
      have hndk3 : ((l3.map fun p : String × JVal => (p.1, canon p.2)).map Prod.fst).Nodup := by
        have : (l3.map fun p : String × JVal => (p.1, canon p.2)).map Prod.fst = l3.map Prod.fst := by
          simp
        rw [this, ← hkeys]
        exact hnd
      rw [insertionSort_eq_of_perm_ndk
        (hperm.map fun p : String × JVal => (p.1, canon p.2))
        hndk3]

/-! Round trip of the string escaping. -/

theorem hexDigVal_hexDig : ∀ m : Nat, m < 16 → hexDigVal (hexDig m) = some m := by
  decide

theorem hex4_uEsc (n : Nat) (h : n < 65536) :
    hex4 (hexDig (n / 4096 % 16)) (hexDig (n / 256 % 16)) (hexDig (n / 16 % 16)) (hexDig (n % 16))
      = some n := by
  unfold hex4
  rw [hexDigVal_hexDig _ (Nat.mod_lt _ (by omega)), hexDigVal_hexDig _ (Nat.mod_lt _ (by omega)),
    hexDigVal_hexDig _ (Nat.mod_lt _ (by omega)), hexDigVal_hexDig _ (Nat.mod_lt _ (by omega))]
  show some (n / 4096 % 16 * 4096 + n / 256 % 16 * 256 + n / 16 % 16 * 16 + n % 16) = some n
  exact congrArg some (by omega)

theorem char_valid_facts (c : Char) :
    c.toNat < 1114112 ∧ (c.toNat < 55296 ∨ 57343 < c.toNat) := by
  have h := c.valid
  rcases h with h | h
  · exact ⟨by simp only [Char.toNat]; omega, Or.inl (by simp only [Char.toNat]; omega)⟩
  · exact ⟨by simp only [Char.toNat]; omega, Or.inr (by simp only [Char.toNat]; omega)⟩


theorem parseStr_surrogate_step (x1 x2 x3 x4 y1 y2 y3 y4 : Char) (t : List Char) (F : Nat) :
    parseStrChars (F + 1) ('\\' :: 'u' :: x1 :: x2 :: x3 :: x4 :: '\\' :: 'u' :: y1 :: y2 :: y3 :: y4 :: t)
      = (match hex4 x1 x2 x3 x4 with
         | some n =>
           if 55296 ≤ n ∧ n < 56320 then
             match hex4 y1 y2 y3 y4 with
             | some n2 =>
               if 56320 ≤ n2 ∧ n2 < 57344 then
                 (parseStrChars F t).map
                   (fun p => (Char.ofNat (65536 + (n - 55296) * 1024 + (n2 - 56320)) :: p.1, p.2))
               else none
             | none => none
           else if 56320 ≤ n ∧ n < 57344 then none
           else (parseStrChars F ('\\' :: 'u' :: y1 :: y2 :: y3 :: y4 :: t)).map
             (fun p => (Char.ofNat n :: p.1, p.2))
         | none => none) := rfl

theorem parseStr_escChar (c : Char) (tail : List Char) (F : Nat) :
    parseStrChars (F + 1) (escChar c ++ tail)
      = (parseStrChars F tail).map (fun p => (c :: p.1, p.2)) := by
  by_cases h1 : c = '"'
  · subst h1; rfl
  by_cases h2 : c = '\\'
  · subst h2; rfl
  by_cases h3 : c = '\x08'
  · subst h3; rfl
  by_cases h4 : c = '\x0c'
  · subst h4; rfl
  by_cases h5 : c = '\n'
  · subst h5; rfl
  by_cases h6 : c = '\r'
  · subst h6; rfl
  by_cases h7 : c = '\t'
  · subst h7; rfl
  rw [escChar, if_neg h1, if_neg h2, if_neg h3, if_neg h4, if_neg h5, if_neg h6, if_neg h7]
  by_cases h8 : 32 ≤ c.toNat ∧ c.toNat ≤ 126
  · rw [if_pos h8]
    show parseStrChars (F + 1) (c :: tail) = _
    simp only [parseStrChars]
    rw [if_neg h1, if_neg h2, if_neg (show ¬(c.toNat < 32) from by omega)]
  by_cases h9 : c.toNat < 65536
  · rw [if_neg h8, if_pos h9]
    have hvf := char_valid_facts c
    have hs1 : ¬(55296 ≤ c.toNat ∧ c.toNat < 56320) := by omega
    have hs2 : ¬(56320 ≤ c.toNat ∧ c.toNat < 57344) := by omega
    simp only [uEsc, List.cons_append, List.nil_append, parseStrChars]
    simp [hex4_uEsc c.toNat h9, hs1, hs2]
  · rw [if_neg h8, if_neg h9]
    have hvf := char_valid_facts c
    have hhi : 55296 + (c.toNat - 65536) / 1024 < 65536 := by omega
    have hlo : 56320 + (c.toNat - 65536) % 1024 < 65536 := by omega
    have hr1 : 55296 ≤ 55296 + (c.toNat - 65536) / 1024
        ∧ 55296 + (c.toNat - 65536) / 1024 < 56320 := by omega
    have hr2 : 56320 ≤ 56320 + (c.toNat - 65536) % 1024
        ∧ 56320 + (c.toNat - 65536) % 1024 < 57344 := by omega
    show parseStrChars (F + 1)
        ('\\' :: 'u' :: hexDig ((55296 + (c.toNat - 65536) / 1024) / 4096 % 16)
          :: hexDig ((55296 + (c.toNat - 65536) / 1024) / 256 % 16)
          :: hexDig ((55296 + (c.toNat - 65536) / 1024) / 16 % 16)
          :: hexDig ((55296 + (c.toNat - 65536) / 1024) % 16)
          :: '\\' :: 'u' :: hexDig ((56320 + (c.toNat - 65536) % 1024) / 4096 % 16)
          :: hexDig ((56320 + (c.toNat - 65536) % 1024) / 256 % 16)
          :: hexDig ((56320 + (c.toNat - 65536) % 1024) / 16 % 16)
          :: hexDig ((56320 + (c.toNat - 65536) % 1024) % 16) :: tail)
        = (parseStrChars F tail).map (fun p => (c :: p.1, p.2))
    rw [parseStr_surrogate_step, hex4_uEsc _ hhi, hex4_uEsc _ hlo]
    simp only [if_pos hr1, if_pos hr2]
    rw [show 65536 + (55296 + (c.toNat - 65536) / 1024 - 55296) * 1024
        + (56320 + (c.toNat - 65536) % 1024 - 56320) = c.toNat from by omega]
    rw [Char.ofNat_toNat]

theorem parseStr_escList : ∀ (cs : List Char) (rest : List Char) (F : Nat),
    cs.length < F → parseStrChars F (escList cs ++ '"' :: rest) = some (cs, rest) := by
  intro cs
  induction cs with
  | nil =>
    intro rest F hF
    cases F with
    | zero => omega
    | succ F => rfl
  | cons c t ih =>
    intro rest F hF
    cases F with
    | zero => simp at hF
    | succ F =>
      rw [escList, List.append_assoc, parseStr_escChar,
        ih rest F (by simp at hF; omega)]
      rfl

/-! Round trip of the number scanner. -/

/-- What may legally follow a rendered value inside a JSON document: the
end of input or a separator/closer. All of these stop the digit scanner
and are not a fraction or exponent mark. -/
def numStop (l : List Char) : Prop :=
  match l with
  | [] => True
  | c :: _ => c = ',' ∨ c = ']' ∨ c = '}'

/-- The input does not continue with a digit, so a digit run ends here. -/
def noDigitHead (l : List Char) : Prop :=
  match l with
  | [] => True
  | c :: _ => isDigitCh c = false

theorem numStop_noDigit : ∀ {l : List Char}, numStop l → noDigitHead l := by
  intro l h
  cases l with
  | nil => trivial
  | cons c t =>
    show isDigitCh c = false
    rcases h with h | h | h <;> subst h <;> decide

theorem spanDigits_append : ∀ (ds rest : List Char),
    (∀ c ∈ ds, isDigitCh c = true) → noDigitHead rest →
    spanDigits (ds ++ rest) = (ds, rest) := by
  intro ds
  induction ds with
  | nil =>
    intro rest hd hstop
    cases rest with
    | nil => rfl
    | cons c t =>
      have hh : isDigitCh c = false := hstop
      rw [List.nil_append, spanDigits]
      simp [hh]
  | cons d t ih =>
    intro rest hd hstop
    rw [List.cons_append, spanDigits, if_pos (hd d (by simp)), ih rest (fun c hc => hd c (by simp [hc])) hstop]

theorem digitChar_toNat : ∀ d : Nat, d < 10 → (Nat.digitChar d).toNat = 48 + d := by
  decide

theorem digitsToNat_append_one (xs : List Char) (c : Char) :
    digitsToNat (xs ++ [c]) = 10 * digitsToNat xs + (c.toNat - 48) := by
  unfold digitsToNat
  rw [List.foldl_append]
  rfl

theorem digitsToNat_decChars : ∀ m : Nat, digitsToNat (decChars m) = m := by
  intro m
  induction m using Nat.strong_induction_on with
  | _ m ih =>
    by_cases hm : m < 10
    · rw [decChars_small hm]
      show 10 * 0 + ((Nat.digitChar m).toNat - 48) = m
      rw [digitChar_toNat m hm]
      omega
    · rw [decChars_large hm, digitsToNat_append_one,
        ih (m / 10) (Nat.div_lt_self (by omega) (by omega)),
        digitChar_toNat (m % 10) (Nat.mod_lt _ (by omega))]
      omega

theorem digitChar_ne_zero : ∀ d : Nat, d < 10 → d ≠ 0 → Nat.digitChar d ≠ '0' := by
  decide

theorem decChars_head_ne_zero : ∀ m : Nat, m ≠ 0 → ∀ c cs, decChars m = c :: cs → c ≠ '0' := by
  intro m
  induction m using Nat.strong_induction_on with
  | _ m ih =>
    intro hm c cs hd
    by_cases hsm : m < 10
    · rw [decChars_small hsm] at hd
      simp at hd
      rw [← hd.1]
      exact digitChar_ne_zero m hsm hm
    · rw [decChars_large hsm] at hd
      cases he : decChars (m / 10) with
      | nil => exact absurd he (decChars_ne_nil _)
      | cons c0 cs0 =>
        rw [he] at hd
        simp at hd
        rw [← hd.1]
        exact ih (m / 10) (Nat.div_lt_self (by omega) (by omega)) (by omega) c0 cs0 he

theorem isDigitCh_ne_minus {c : Char} (h : isDigitCh c = true) : ¬(c = '-') := by
  intro he
  subst he
  simp [isDigitCh] at h

theorem digit_excl3 {c : Char} (h : isDigitCh c = true) :
    ¬(c = '+') ∧ ¬(c = '-') ∧ ¬(c = '.') ∧ ¬(c = 'e') ∧ ¬(c = 'E') := by
  refine ⟨?_, ?_, ?_, ?_, ?_⟩ <;> exact fun he => by subst he; simp [isDigitCh] at h

theorem ipOk_cons {ip : List Char} (h : ipOk ip = true) :
    ∃ c cs, ip = c :: cs ∧ isDigitCh c = true ∧ ∀ x ∈ ip, isDigitCh x = true := by
  cases ip with
  | nil => simp [ipOk] at h
  | cons c t =>
    by_cases hc : c = '0'
    · subst hc
      have ht : t = [] := by
        cases t with
        | nil => rfl
        | cons a b => simp [ipOk] at h
      subst ht
      exact ⟨'0', [], rfl, by decide, by intro x hx; simp at hx; subst hx; decide⟩
    · have h' : isDigitCh c = true ∧ t.all isDigitCh = true := by
        simpa [ipOk, hc, Bool.and_eq_true] using h
      refine ⟨c, t, rfl, h'.1, ?_⟩
      intro x hx
      rcases List.mem_cons.mp hx with hx | hx
      · subst hx; exact h'.1
      · exact List.all_eq_true.mp h'.2 x hx

theorem parseIntPart_ok {rest : List Char} (hnd : noDigitHead rest) :
    ∀ (ip : List Char), ipOk ip = true → ∀ (c : Char) (cs : List Char), ip = c :: cs →
      parseIntPart c (cs ++ rest) = some (ip, rest) := by
  intro ip hok c cs he
  subst he
  by_cases hc : c = '0'
  · subst hc
    have ht : cs = [] := by
      cases cs with
      | nil => rfl
      | cons a b => simp [ipOk] at hok
    subst ht
    rw [List.nil_append, parseIntPart, if_pos rfl]
  · have h' : isDigitCh c = true ∧ cs.all isDigitCh = true := by
      simpa [ipOk, hc, Bool.and_eq_true] using hok
    rw [parseIntPart, if_neg hc, if_pos h'.1]
    show some (c :: (spanDigits (cs ++ rest)).1, (spanDigits (cs ++ rest)).2) = _
    rw [spanDigits_append cs rest (fun x hx => List.all_eq_true.mp h'.2 x hx) hnd]

theorem parseFracPart_nodot : ∀ (l : List Char), (∀ c cs, l = c :: cs → ¬c = '.') →
    parseFracPart l = ([], l) := by
  intro l h
  cases l with
  | nil => rfl
  | cons c r =>
    have hstep : parseFracPart (c :: r)
        = if c = '.' then
            (match spanDigits r with
             | ([], _) => (([] : List Char), c :: r)
             | (ds, r2) => (ds, r2))
          else ([], c :: r) := rfl
    rw [hstep, if_neg (h c r rfl)]

theorem parseFracPart_frac (fp r : List Char) (hne : fp ≠ [])
    (hds : ∀ c ∈ fp, isDigitCh c = true) (hr : noDigitHead r) :
    parseFracPart ('.' :: (fp ++ r)) = (fp, r) := by
  have hstep : parseFracPart ('.' :: (fp ++ r))
      = (match spanDigits (fp ++ r) with
         | ([], _) => (([] : List Char), '.' :: (fp ++ r))
         | (ds, r2) => (ds, r2)) := rfl
  rw [hstep, spanDigits_append fp r hds hr]
  cases fp with
  | nil => exact absurd rfl hne
  | cons d dt => rfl

theorem parseExpPart_noe : ∀ (l : List Char), (∀ c cs, l = c :: cs → ¬(c = 'e' ∨ c = 'E')) →
    parseExpPart l = (none, l) := by
  intro l h
  cases l with
  | nil => rfl
  | cons c r =>
    have hstep : parseExpPart (c :: r)
        = if c = 'e' ∨ c = 'E' then
            (match r with
             | s :: r2 =>
               if s = '+' then
                 match spanDigits r2 with
                 | ([], _) => (none, c :: r)
                 | (ds, r3) => (some (some false, ds), r3)
               else if s = '-' then
                 match spanDigits r2 with
                 | ([], _) => (none, c :: r)
                 | (ds, r3) => (some (some true, ds), r3)
               else
                 match spanDigits r with
                 | ([], _) => (none, c :: r)
                 | (ds, r3) => (some (none, ds), r3)
             | [] => (none, c :: r))
          else (none, c :: r) := rfl
    rw [hstep, if_neg (h c r rfl)]

theorem parseExpPart_exp (sgn : Option Bool) (ds r : List Char) (hne : ds ≠ [])
    (hds : ∀ c ∈ ds, isDigitCh c = true) (hr : noDigitHead r) :
    parseExpPart (expChars (some (sgn, ds)) ++ r) = (some (sgn, ds), r) := by
  cases ds with
  | nil => exact absurd rfl hne
  | cons d dt =>
    have hd := hds d (by simp)
    obtain ⟨hplus, hminus, -, -, -⟩ := digit_excl3 hd
    cases sgn with
    | none =>
      show parseExpPart ('e' :: d :: (dt ++ r)) = (some (none, d :: dt), r)
      have hstep : parseExpPart ('e' :: d :: (dt ++ r))
          = (if d = '+' then
               match spanDigits (dt ++ r) with
               | ([], _) => (none, 'e' :: d :: (dt ++ r))
               | (ds2, r3) => (some (some false, ds2), r3)
             else if d = '-' then
               match spanDigits (dt ++ r) with
               | ([], _) => (none, 'e' :: d :: (dt ++ r))
               | (ds2, r3) => (some (some true, ds2), r3)
             else
               match spanDigits (d :: (dt ++ r)) with
               | ([], _) => (none, 'e' :: d :: (dt ++ r))
               | (ds2, r3) => (some (none, ds2), r3)) := rfl
      rw [hstep, if_neg hplus, if_neg hminus,
        show d :: (dt ++ r) = (d :: dt) ++ r from rfl,
        spanDigits_append (d :: dt) r hds hr]
    | some b =>
      cases b with
      | true =>
        show parseExpPart ('e' :: '-' :: ((d :: dt) ++ r)) = (some (some true, d :: dt), r)
        have hstep : parseExpPart ('e' :: '-' :: ((d :: dt) ++ r))
            = (match spanDigits ((d :: dt) ++ r) with
               | ([], _) => (none, 'e' :: '-' :: ((d :: dt) ++ r))
               | (ds2, r3) => (some (some true, ds2), r3)) := rfl
        rw [hstep, spanDigits_append (d :: dt) r hds hr]
      | false =>
        show parseExpPart ('e' :: '+' :: ((d :: dt) ++ r)) = (some (some false, d :: dt), r)
        have hstep : parseExpPart ('e' :: '+' :: ((d :: dt) ++ r))
            = (match spanDigits ((d :: dt) ++ r) with
               | ([], _) => (none, 'e' :: '+' :: ((d :: dt) ++ r))
               | (ds2, r3) => (some (some false, ds2), r3)) := rfl
        rw [hstep, spanDigits_append (d :: dt) r hds hr]

theorem parseNumTail_eval (neg : Bool) (ip r fp r2 : List Char)
    (ex : Option (Option Bool × List Char)) (r3 : List Char)
    (h1 : parseFracPart r = (fp, r2)) (h2 : parseExpPart r2 = (ex, r3)) :
    parseNumTail neg ip r
      = if fp = [] ∧ ex = none then
          some (.int (if neg then -(digitsToNat ip : Int) else (digitsToNat ip : Int)), r3)
        else some (.float (.fin neg ip fp ex), r3) := by
  have hstep : parseNumTail neg ip r
      = (match parseFracPart r with
         | (fp, r2) =>
           match parseExpPart r2 with
           | (ex, r3) =>
             if fp = [] ∧ ex = none then
               some (.int (if neg then -(digitsToNat ip : Int) else (digitsToNat ip : Int)), r3)
             else some (.float (.fin neg ip fp ex), r3)) := rfl
  rw [hstep, h1]
  show (match parseExpPart r2 with
        | (ex, r3) =>
          if fp = [] ∧ ex = none then
            (some (JVal.int (if neg then -(digitsToNat ip : Int) else (digitsToNat ip : Int)), r3)
              : Option (JVal × List Char))
          else some (JVal.float (.fin neg ip fp ex), r3)) = _
  rw [h2]

theorem parseNumTail_stop (neg : Bool) (ip : List Char) {rest : List Char} (hstop : numStop rest) :
    parseNumTail neg ip rest
      = some (.int (if neg then -(digitsToNat ip : Int) else (digitsToNat ip : Int)), rest) := by
  have h1 : parseFracPart rest = ([], rest) := by
    apply parseFracPart_nodot
    intro c cs he
    rw [he] at hstop
    rcases hstop with h | h | h <;> subst h <;> decide
  have h2 : parseExpPart rest = (none, rest) := by
    apply parseExpPart_noe
    intro c cs he
    rw [he] at hstop
    rcases hstop with h | h | h <;> subst h <;> decide
  rw [parseNumTail_eval neg ip rest [] rest none rest h1 h2]
  simp

theorem parseNumTail_float (neg : Bool) (ip fp : List Char)
    (ex : Option (Option Bool × List Char)) {rest : List Char}
    (hfp : ∀ c ∈ fp, isDigitCh c = true)
    (hex : ∀ sgn ds, ex = some (sgn, ds) → ds ≠ [] ∧ ∀ c ∈ ds, isDigitCh c = true)
    (hor : ¬(fp = [] ∧ ex = none))
    (hstop : numStop rest) :
    parseNumTail neg ip (fracChars fp ++ (expChars ex ++ rest))
      = some (.float (.fin neg ip fp ex), rest) := by
  have hE : noDigitHead (expChars ex ++ rest) := by
    cases ex with
    | some p =>
      obtain ⟨sgn, ds⟩ := p
      show isDigitCh 'e' = false
      decide
    | none => exact numStop_noDigit hstop
  have h1 : parseFracPart (fracChars fp ++ (expChars ex ++ rest)) = (fp, expChars ex ++ rest) := by
    cases fp with
    | nil =>
      rw [show fracChars [] = ([] : List Char) from rfl, List.nil_append]
      apply parseFracPart_nodot
      intro c2 cs2 he
      cases ex with
      | some p =>
        obtain ⟨sgn, ds⟩ := p
        have h0 : expChars (some (sgn, ds)) ++ rest = 'e' :: ((sgnChars sgn ++ ds) ++ rest) := rfl
        rw [h0] at he
        injection he with hh _
        rw [← hh]
        decide
      | none =>
        rw [show expChars none = ([] : List Char) from rfl, List.nil_append] at he
        rw [he] at hstop
        rcases hstop with h | h | h <;> subst h <;> decide
    | cons d dt =>
      rw [show fracChars (d :: dt) ++ (expChars ex ++ rest)
          = '.' :: ((d :: dt) ++ (expChars ex ++ rest)) from rfl]
      exact parseFracPart_frac (d :: dt) _ (by simp) hfp hE
  have h2 : parseExpPart (expChars ex ++ rest) = (ex, rest) := by
    cases ex with
    | none =>
      rw [show expChars none = ([] : List Char) from rfl, List.nil_append]
      apply parseExpPart_noe
      intro c2 cs2 he
      rw [he] at hstop
      rcases hstop with h | h | h <;> subst h <;> decide
    | some p =>
      obtain ⟨sgn, ds⟩ := p
      exact parseExpPart_exp sgn ds rest (hex sgn ds rfl).1 (hex sgn ds rfl).2
        (numStop_noDigit hstop)
  rw [parseNumTail_eval neg ip _ fp _ ex rest h1 h2, if_neg hor]

theorem parseNumber_cons (c : Char) (r : List Char) :
    parseNumber (c :: r)
      = if c = '-' then
          (match r with
           | [] => none
           | c2 :: r2 =>
             match parseIntPart c2 r2 with
             | none => none
             | some (ip, r3) => parseNumTail true ip r3)
        else
          match parseIntPart c r with
          | none => none
          | some (ip, r3) => parseNumTail false ip r3 := rfl

theorem decChars_ipOk : ∀ m : Nat, ipOk (decChars m) = true := by
  intro m
  by_cases hm : m = 0
  · subst hm
    rw [decChars_small (by omega)]
    decide
  · cases he : decChars m with
    | nil => exact absurd he (decChars_ne_nil _)
    | cons c cs =>
      have hc0 : ¬(c = '0') := decChars_head_ne_zero m hm c cs he
      have hdig := decChars_digit m
      rw [he] at hdig
      have h1 : isDigitCh c = true := hdig c (by simp)
      have h2 : cs.all isDigitCh = true := by
        rw [List.all_eq_true]
        intro x hx
        exact hdig x (by simp [hx])
      simp [ipOk, hc0, h1, h2]

theorem pyFloatOk_parts {neg : Bool} {ip fp : List Char} {ex : Option (Option Bool × List Char)}
    (h : pyFloatOk (.fin neg ip fp ex) = true) :
    ipOk ip = true ∧ (∀ c ∈ fp, isDigitCh c = true)
      ∧ (∀ sgn ds, ex = some (sgn, ds) → ds ≠ [] ∧ ∀ c ∈ ds, isDigitCh c = true)
      ∧ ¬(fp = [] ∧ ex = none) := by
  cases ex with
  | none =>
    have h' : (ipOk ip && fp.all isDigitCh && true && (!fp.isEmpty || false)) = true := h
    rw [Bool.and_eq_true, Bool.and_eq_true, Bool.and_eq_true] at h'
    obtain ⟨⟨⟨h1, h2⟩, -⟩, h4⟩ := h'
    refine ⟨h1, fun c hc => List.all_eq_true.mp h2 c hc, ?_, ?_⟩
    · intro sgn ds he
      exact absurd he (by simp)
    · rintro ⟨hfp, -⟩
      subst hfp
      simp at h4
  | some p =>
    obtain ⟨sgn, ds⟩ := p
    have h' : (ipOk ip && fp.all isDigitCh && (!ds.isEmpty && ds.all isDigitCh)
        && (!fp.isEmpty || true)) = true := h
    rw [Bool.and_eq_true, Bool.and_eq_true, Bool.and_eq_true] at h'
    obtain ⟨⟨⟨h1, h2⟩, h3⟩, -⟩ := h'
    rw [Bool.and_eq_true] at h3
    refine ⟨h1, fun c hc => List.all_eq_true.mp h2 c hc, ?_, ?_⟩
    · intro sgn2 ds2 he
      injection he with hp
      rw [Prod.mk.injEq] at hp
      obtain ⟨-, h6⟩ := hp
      subst h6
      constructor
      · intro hde
        rw [hde] at h3
        simp at h3
      · intro c hc
        exact List.all_eq_true.mp h3.2 c hc
    · rintro ⟨-, hexn⟩
      simp at hexn

theorem parseNumber_int : ∀ (n : Int) (rest : List Char), numStop rest →
    parseNumber ((intStr n).data ++ rest) = some (.int n, rest) := by
  intro n rest hstop
  by_cases hn : n < 0
  · rw [intStr, if_pos hn]
    have hdata : ("-" ++ String.mk (decChars n.natAbs)).data = '-' :: decChars n.natAbs := by
      rw [String.data_append]
      rfl
    rw [hdata, List.cons_append, parseNumber_cons, if_pos rfl]
    cases he : decChars n.natAbs with
    | nil => exact absurd he (decChars_ne_nil _)
    | cons c cs =>
      rw [List.cons_append]
      show (match parseIntPart c (cs ++ rest) with
            | none => none
            | some (ip, r3) => parseNumTail true ip r3) = some (.int n, rest)
      rw [parseIntPart_ok (numStop_noDigit hstop) (c :: cs) (by rw [← he]; exact decChars_ipOk n.natAbs) c cs rfl]
      show parseNumTail true (c :: cs) rest = some (.int n, rest)
      rw [parseNumTail_stop true (c :: cs) hstop]
      have hval : digitsToNat (c :: cs) = n.natAbs := by
        rw [← he]
        exact digitsToNat_decChars n.natAbs
      have hv2 : (if (true : Bool) then -(digitsToNat (c :: cs) : Int)
          else (digitsToNat (c :: cs) : Int)) = n := by
        rw [hval]
        simp only [if_true]
        omega
      rw [hv2]
  · rw [intStr, if_neg hn]
    have hdata : (String.mk (decChars n.natAbs)).data = decChars n.natAbs := rfl
    rw [hdata]
    cases he : decChars n.natAbs with
    | nil => exact absurd he (decChars_ne_nil _)
    | cons c cs =>
      have hdigc : isDigitCh c = true := by
        have h2 := decChars_digit n.natAbs
        rw [he] at h2
        exact h2 c (by simp)
      rw [List.cons_append, parseNumber_cons, if_neg (isDigitCh_ne_minus hdigc)]
      rw [parseIntPart_ok (numStop_noDigit hstop) (c :: cs) (by rw [← he]; exact decChars_ipOk n.natAbs) c cs rfl]
      show parseNumTail false (c :: cs) rest = some (.int n, rest)
      rw [parseNumTail_stop false (c :: cs) hstop]
      have hval : digitsToNat (c :: cs) = n.natAbs := by
        rw [← he]
        exact digitsToNat_decChars n.natAbs
      have hv2 : (if (false : Bool) then -(digitsToNat (c :: cs) : Int)
          else (digitsToNat (c :: cs) : Int)) = n := by
        rw [hval]
        simp only [Bool.false_eq_true, if_false]
        omega
      rw [hv2]

theorem parseNumber_float (neg : Bool) (ip fp : List Char) (ex : Option (Option Bool × List Char))
    (hok : pyFloatOk (.fin neg ip fp ex) = true) (rest : List Char) (hstop : numStop rest) :
    parseNumber (floatChars (.fin neg ip fp ex) ++ rest)
      = some (.float (.fin neg ip fp ex), rest) := by
  obtain ⟨h1, h2, h3, h4⟩ := pyFloatOk_parts hok
  obtain ⟨c, cs, hip, hcd, hdig⟩ := ipOk_cons h1
  have hnd : noDigitHead (fracChars fp ++ (expChars ex ++ rest)) := by
    cases fp with
    | cons d dt =>
      show isDigitCh '.' = false
      decide
    | nil =>
      rw [show fracChars [] = ([] : List Char) from rfl, List.nil_append]
      cases ex with
      | some p =>
        obtain ⟨sgn, ds⟩ := p
        show isDigitCh 'e' = false
        decide
      | none => exact numStop_noDigit hstop
  have htail := parseNumTail_float neg (c :: cs) fp ex h2 h3 h4 hstop
  cases neg with
  | false =>
    have hbase : floatChars (.fin false (c :: cs) fp ex) ++ rest
        = c :: (cs ++ (fracChars fp ++ (expChars ex ++ rest))) := by
      show (([] : List Char) ++ (c :: cs) ++ fracChars fp ++ expChars ex) ++ rest = _
      simp [List.append_assoc]
    rw [hip, hbase, parseNumber_cons, if_neg (digit_excl3 hcd).2.1,
      parseIntPart_ok hnd (c :: cs) (by rw [← hip]; exact h1) c cs rfl]
    exact htail
  | true =>
    have hbase : floatChars (.fin true (c :: cs) fp ex) ++ rest
        = '-' :: (c :: (cs ++ (fracChars fp ++ (expChars ex ++ rest)))) := by
      show ((['-'] : List Char) ++ (c :: cs) ++ fracChars fp ++ expChars ex) ++ rest = _
      simp [List.append_assoc]
    rw [hip, hbase, parseNumber_cons, if_pos rfl]
    show (match parseIntPart c (cs ++ (fracChars fp ++ (expChars ex ++ rest))) with
          | none => none
          | some (ip2, r3) => parseNumTail true ip2 r3)
        = some (.float (.fin true (c :: cs) fp ex), rest)
    rw [parseIntPart_ok hnd (c :: cs) (by rw [← hip]; exact h1) c cs rfl]
    exact htail


/-! Rebuilding a dict from scanned pairs with distinct keys. -/

theorem objSet_append (l : List (String × JVal)) (k : String) (v : JVal)
    (h : k ∉ l.map Prod.fst) : objSet l k v = l ++ [(k, v)] := by
  induction l with
  | nil => rfl
  | cons p t ih =>
    rw [objSet]
    rw [List.map_cons] at h
    rw [if_neg (fun he => h (by simp [he]))]
    rw [ih (fun hm => h (by simp [hm]))]
    rfl

theorem objFromPairs_go (l : List (String × JVal)) :
    ∀ acc : List (String × JVal), ((acc ++ l).map Prod.fst).Nodup →
      l.foldl (fun a p => objSet a p.1 p.2) acc = acc ++ l := by
  induction l with
  | nil => intro acc _; simp
  | cons p t ih =>
    intro acc hnd
    rw [List.foldl_cons]
    have hk : p.1 ∉ acc.map Prod.fst := by
      intro hm
      rw [List.map_append] at hnd
      have := List.Nodup.not_mem ((List.nodup_append.mp hnd).2.1)
      have hdisj := (List.nodup_append.mp hnd).2.2
      exact hdisj hm (by simp)
    rw [objSet_append acc p.1 p.2 hk]
    have : acc ++ [(p.1, p.2)] ++ t = acc ++ (p :: t) := by simp
    rw [ih (acc ++ [(p.1, p.2)]) (by rw [this]; exact hnd), this]

theorem objFromPairs_self (l : List (String × JVal)) (h : (l.map Prod.fst).Nodup) :
    objFromPairs l = l := by
  unfold objFromPairs
  have := objFromPairs_go l [] (by simpa using h)
  simpa using this

/-! Shape of rendered text. -/

theorem render_str (s : String) : render (.str s) = renderStr s := by rw [render]

theorem render_int (n : Int) : render (.int n) = intStr n := by rw [render]

theorem render_bool (b : Bool) : render (.bool b) = cond b ("true") ("false") := by rw [render]

theorem render_null : render .null = "null" := by rw [render]

theorem data_renderStr (s : String) :
    (renderStr s).data = '"' :: (escList s.data ++ ['"']) := by
  show ("\"" ++ String.mk (escList s.data) ++ "\"").data = _
  rw [String.data_append, String.data_append]
  rfl

theorem joinComma_one (a : String) : joinComma [a] = a := rfl

theorem joinComma_cons2 (a b : String) (t : List String) :
    joinComma (a :: b :: t) = a ++ ", " ++ joinComma (b :: t) := rfl

/-- The characters a rendered value can start with. -/
def headOk (c : Char) : Prop :=
  c = '"' ∨ c = '-' ∨ isDigitCh c = true ∨ c = 't' ∨ c = 'f' ∨ c = 'n' ∨ c = '[' ∨ c = '{'
    ∨ c = 'N' ∨ c = 'I'

theorem digit_excl : ∀ c : Char, isDigitCh c = true →
    isJsonWs c = false ∧ ¬(c = ']') ∧ ¬(c = '}') ∧ ¬(c = ',') := by
  intro c h
  refine ⟨?_, ?_, ?_, ?_⟩
  · unfold isJsonWs
    have h1 : ¬(c = ' ') := fun he => by subst he; simp [isDigitCh] at h
    have h2 : ¬(c = '\t') := fun he => by subst he; simp [isDigitCh] at h
    have h3 : ¬(c = '\n') := fun he => by subst he; simp [isDigitCh] at h
    have h4 : ¬(c = '\r') := fun he => by subst he; simp [isDigitCh] at h
    simp [h1, h2, h3, h4]
  · exact fun he => by subst he; simp [isDigitCh] at h
  · exact fun he => by subst he; simp [isDigitCh] at h
  · exact fun he => by subst he; simp [isDigitCh] at h

theorem headOk_facts : ∀ c : Char, headOk c →
    isJsonWs c = false ∧ ¬(c = ']') ∧ ¬(c = '}') ∧ ¬(c = ',') := by
  intro c h
  rcases h with h | h | h | h | h | h | h | h | h | h
  · subst h; exact ⟨rfl, by decide, by decide, by decide⟩
  · subst h; exact ⟨rfl, by decide, by decide, by decide⟩
  · exact digit_excl c h
  · subst h; exact ⟨rfl, by decide, by decide, by decide⟩
  · subst h; exact ⟨rfl, by decide, by decide, by decide⟩
  · subst h; exact ⟨rfl, by decide, by decide, by decide⟩
  · subst h; exact ⟨rfl, by decide, by decide, by decide⟩
  · subst h; exact ⟨rfl, by decide, by decide, by decide⟩
  · subst h; exact ⟨rfl, by decide, by decide, by decide⟩
  · subst h; exact ⟨rfl, by decide, by decide, by decide⟩

theorem intStr_head : ∀ n : Int, ∃ c cs, (intStr n).data = c :: cs ∧ (c = '-' ∨ isDigitCh c = true) := by
  intro n
  by_cases hn : n < 0
  · rw [intStr, if_pos hn]
    refine ⟨'-', decChars n.natAbs, ?_, Or.inl rfl⟩
    rw [String.data_append]
    rfl
  · rw [intStr, if_neg hn]
    cases he : decChars n.natAbs with
    | nil => exact absurd he (decChars_ne_nil _)
    | cons c cs =>
      refine ⟨c, cs, rfl, Or.inr ?_⟩
      have := decChars_digit n.natAbs
      rw [he] at this
      exact this c (by simp)

theorem render_head : ∀ w : JVal, Wf w → ∃ c cs, (render w).data = c :: cs ∧ headOk c := by
  intro w hwf
  cases w with
  | float f =>
    cases f with
    | nan => exact ⟨'N', ['a', 'N'], by rw [render_float]; rfl, by unfold headOk; tauto⟩
    | inf =>
      exact ⟨'I', ['n', 'f', 'i', 'n', 'i', 't', 'y'], by rw [render_float]; rfl,
        by unfold headOk; tauto⟩
    | ninf =>
      exact ⟨'-', ['I', 'n', 'f', 'i', 'n', 'i', 't', 'y'], by rw [render_float]; rfl,
        by unfold headOk; tauto⟩
    | fin neg ip fp ex =>
      have hok : pyFloatOk (.fin neg ip fp ex) = true := by
        cases hwf with
        | float _ h => exact h
      obtain ⟨h1, -, -, -⟩ := pyFloatOk_parts hok
      obtain ⟨c, cs, hip, hcd, -⟩ := ipOk_cons h1
      cases neg with
      | true =>
        refine ⟨'-', ip ++ (fracChars fp ++ expChars ex), ?_, by unfold headOk; tauto⟩
        rw [render_float]
        show (['-'] ++ ip ++ fracChars fp ++ expChars ex) = _
        simp [List.append_assoc]
      | false =>
        refine ⟨c, cs ++ (fracChars fp ++ expChars ex), ?_, by unfold headOk; tauto⟩
        rw [render_float]
        show (([] : List Char) ++ ip ++ fracChars fp ++ expChars ex) = _
        rw [hip]
        simp [List.append_assoc]
  | str s =>
    refine ⟨'"', escList s.data ++ ['"'], ?_, Or.inl rfl⟩
    rw [render_str, data_renderStr]
  | int n =>
    obtain ⟨c, cs, hd, hc⟩ := intStr_head n
    refine ⟨c, cs, ?_, ?_⟩
    · rw [render_int, hd]
    · rcases hc with h | h
      · exact Or.inr (Or.inl h)
      · exact Or.inr (Or.inr (Or.inl h))
  | bool b =>
    cases b with
    | true => exact ⟨'t', ['r', 'u', 'e'], by rw [render_bool]; rfl, by unfold headOk; tauto⟩
    | false => exact ⟨'f', ['a', 'l', 's', 'e'], by rw [render_bool]; rfl, by unfold headOk; tauto⟩
  | null => exact ⟨'n', ['u', 'l', 'l'], by rw [render_null], by unfold headOk; tauto⟩
  | arr l =>
    refine ⟨'[', (joinComma (l.map render)).data ++ [']'], ?_, by unfold headOk; tauto⟩
    rw [render_arr, String.data_append, String.data_append]
    rfl
  | obj l =>
    refine ⟨'{', (joinComma (l.map fun p => renderStr p.1 ++ ": " ++ render p.2)).data ++ ['}'], ?_,
      by unfold headOk; tauto⟩
    rw [render_obj, String.data_append, String.data_append]
    rfl

/-! Step equations for the scanner, and whitespace facts. -/

theorem mk_data (s : String) : String.mk s.data = s := rfl

theorem skipWs_notws {c : Char} (r : List Char) (h : isJsonWs c = false) :
    skipWs (c :: r) = c :: r := by
  simp [skipWs, List.dropWhile, h]

theorem skipWs_space (r : List Char) : skipWs (' ' :: r) = skipWs r := rfl

theorem escChar_len (c : Char) : 1 ≤ (escChar c).length := by
  unfold escChar
  repeat' split
  all_goals simp [uEsc]

theorem escList_len (cs : List Char) : cs.length ≤ (escList cs).length := by
  induction cs with
  | nil => simp [escList]
  | cons c t ih =>
    show (c :: t).length ≤ (escChar c ++ escList t).length
    rw [List.length_cons, List.length_append]
    have := escChar_len c
    omega

theorem data_render_arr (l : List JVal) :
    (render (.arr l)).data = '[' :: ((joinComma (l.map render)).data ++ [']']) := by
  rw [render_arr, String.data_append, String.data_append]
  rfl

theorem data_render_obj (l : List (String × JVal)) :
    (render (.obj l)).data
      = '{' :: ((joinComma (l.map fun p => renderStr p.1 ++ ": " ++ render p.2)).data ++ ['}']) := by
  rw [render_obj, String.data_append, String.data_append]
  rfl

theorem data_joinComma_cons2 (a b : String) (t : List String) :
    (joinComma (a :: b :: t)).data = a.data ++ ',' :: ' ' :: (joinComma (b :: t)).data := by
  rw [joinComma_cons2, String.data_append, String.data_append]
  simp [List.append_assoc]

theorem data_entry (k : String) (v : JVal) :
    (renderStr k ++ ": " ++ render v).data
      = '"' :: (escList k.data ++ '"' :: ':' :: ' ' :: (render v).data) := by
  rw [String.data_append, String.data_append, data_renderStr]
  simp [List.append_assoc]

theorem parseGo_top_quote (F : Nat) (r : List Char) :
    parseGo (F + 1) .top ('"' :: r)
      = (parseStrChars (r.length + 1) r).map (fun p => (JVal.str (String.mk p.1), p.2)) := rfl

theorem parseGo_top_lbrack (F : Nat) (r : List Char) :
    parseGo (F + 1) .top ('[' :: r)
      = (match skipWs r with
         | ']' :: r2 => some (JVal.arr [], r2)
         | r2 => (parseGo F .elems r2).map (fun p => (JVal.arr p.1, p.2))) := rfl

theorem parseGo_top_lbrace (F : Nat) (r : List Char) :
    parseGo (F + 1) .top ('{' :: r)
      = (match skipWs r with
         | '}' :: r2 => some (JVal.obj [], r2)
         | r2 => (parseGo F .entries r2).map (fun p => (JVal.obj (objFromPairs p.1), p.2))) := rfl

theorem parseGo_top_null (F : Nat) (r : List Char) :
    parseGo (F + 1) .top ('n' :: 'u' :: 'l' :: 'l' :: r) = some (JVal.null, r) := rfl

theorem parseGo_top_true (F : Nat) (r : List Char) :
    parseGo (F + 1) .top ('t' :: 'r' :: 'u' :: 'e' :: r) = some (JVal.bool true, r) := rfl

theorem parseGo_top_false (F : Nat) (r : List Char) :
    parseGo (F + 1) .top ('f' :: 'a' :: 'l' :: 's' :: 'e' :: r) = some (JVal.bool false, r) := rfl

theorem parseGo_elems_step (F : Nat) (l : List Char) :
    parseGo (F + 1) .elems l
      = (match parseGo F .top l with
         | none => none
         | some p =>
           match skipWs p.2 with
           | ',' :: r2 => (parseGo F .elems (skipWs r2)).map (fun q => (p.1 :: q.1, q.2))
           | ']' :: r2 => some ([p.1], r2)
           | _ => none) := rfl

theorem parseGo_entries_quote (F : Nat) (r : List Char) :
    parseGo (F + 1) .entries ('"' :: r)
      = (match parseStrChars (r.length + 1) r with
         | none => none
         | some pk =>
           match skipWs pk.2 with
           | ':' :: r2 =>
             match parseGo F .top (skipWs r2) with
             | none => none
             | some pv =>
               match skipWs pv.2 with
               | ',' :: r3 =>
                 (parseGo F .entries (skipWs r3)).map
                   (fun q => ((String.mk pk.1, pv.1) :: q.1, q.2))
               | '}' :: r3 => some ([(String.mk pk.1, pv.1)], r3)
               | _ => none
           | _ => none) := rfl

theorem digit_excl2 : ∀ c : Char, isDigitCh c = true →
    ¬(c = '"') ∧ ¬(c = '{') ∧ ¬(c = '[') ∧ ¬(c = 'n') ∧ ¬(c = 't') ∧ ¬(c = 'f') := by
  intro c h
  refine ⟨?_, ?_, ?_, ?_, ?_, ?_⟩ <;>
    exact fun he => by subst he; simp [isDigitCh] at h

theorem parseGo_top_other (F : Nat) (c : Char) (r : List Char)
    (h1 : ¬c = '"') (h2 : ¬c = '{') (h3 : ¬c = '[') (h4 : ¬c = 'n') (h5 : ¬c = 't')
    (h6 : ¬c = 'f') :
    parseGo (F + 1) .top (c :: r)
      = (match parseNumber (c :: r) with
         | some p => some p
         | none =>
           if c = 'N' then
             match r with
             | 'a' :: 'N' :: r2 => some (JVal.float .nan, r2)
             | _ => none
           else if c = 'I' then
             match r with
             | 'n' :: 'f' :: 'i' :: 'n' :: 'i' :: 't' :: 'y' :: r2 =>
               some (JVal.float .inf, r2)
             | _ => none
           else if c = '-' then
             match r with
             | 'I' :: 'n' :: 'f' :: 'i' :: 'n' :: 'i' :: 't' :: 'y' :: r2 =>
               some (JVal.float .ninf, r2)
             | _ => none
           else none) := by
  have hstep : parseGo (F + 1) .top (c :: r)
      = (if c = '"' then
           (parseStrChars (r.length + 1) r).map (fun p => (JVal.str (String.mk p.1), p.2))
         else if c = '{' then
           match skipWs r with
           | '}' :: r2 => some (JVal.obj [], r2)
           | r2 => (parseGo F .entries r2).map (fun p => (JVal.obj (objFromPairs p.1), p.2))
         else if c = '[' then
           match skipWs r with
           | ']' :: r2 => some (JVal.arr [], r2)
           | r2 => (parseGo F .elems r2).map (fun p => (JVal.arr p.1, p.2))
         else if c = 'n' then
           match r with
           | 'u' :: 'l' :: 'l' :: r2 => some (JVal.null, r2)
           | _ => none
         else if c = 't' then
           match r with
           | 'r' :: 'u' :: 'e' :: r2 => some (JVal.bool true, r2)
           | _ => none
         else if c = 'f' then
           match r with
           | 'a' :: 'l' :: 's' :: 'e' :: r2 => some (JVal.bool false, r2)
           | _ => none
         else
           match parseNumber (c :: r) with
           | some p => some p
           | none =>
             if c = 'N' then
               match r with
               | 'a' :: 'N' :: r2 => some (JVal.float .nan, r2)
               | _ => none
             else if c = 'I' then
               match r with
               | 'n' :: 'f' :: 'i' :: 'n' :: 'i' :: 't' :: 'y' :: r2 =>
                 some (JVal.float .inf, r2)
               | _ => none
             else if c = '-' then
               match r with
               | 'I' :: 'n' :: 'f' :: 'i' :: 'n' :: 'i' :: 't' :: 'y' :: r2 =>
                 some (JVal.float .ninf, r2)
               | _ => none
             else none) := rfl
  rw [hstep, if_neg h1, if_neg h2, if_neg h3, if_neg h4, if_neg h5, if_neg h6]
  rfl

theorem parseGo_top_num (F : Nat) (c : Char) (r : List Char)
    (h1 : ¬c = '"') (h2 : ¬c = '{') (h3 : ¬c = '[') (h4 : ¬c = 'n') (h5 : ¬c = 't')
    (h6 : ¬c = 'f') (v : JVal) (rest : List Char)
    (hnum : parseNumber (c :: r) = some (v, rest)) :
    parseGo (F + 1) .top (c :: r) = some (v, rest) := by
  rw [parseGo_top_other F c r h1 h2 h3 h4 h5 h6, hnum]

theorem parseGo_top_nanlit (F : Nat) (r : List Char) :
    parseGo (F + 1) .top ('N' :: 'a' :: 'N' :: r) = some (JVal.float .nan, r) := rfl

theorem parseGo_top_inflit (F : Nat) (r : List Char) :
    parseGo (F + 1) .top ('I' :: 'n' :: 'f' :: 'i' :: 'n' :: 'i' :: 't' :: 'y' :: r)
      = some (JVal.float .inf, r) := rfl

theorem parseGo_top_ninflit (F : Nat) (r : List Char) :
    parseGo (F + 1) .top ('-' :: 'I' :: 'n' :: 'f' :: 'i' :: 'n' :: 'i' :: 't' :: 'y' :: r)
      = some (JVal.float .ninf, r) := rfl

theorem parseGo_top_arr_cons (F : Nat) (c : Char) (Y : List Char)
    (h1 : isJsonWs c = false) (h2 : ¬c = ']') :
    parseGo (F + 1) .top ('[' :: (c :: Y))
      = (parseGo F .elems (c :: Y)).map (fun p => (JVal.arr p.1, p.2)) := by
  rw [parseGo_top_lbrack, skipWs_notws Y h1]
  split
  · rename_i heq
    exact absurd (List.head_eq_of_cons_eq heq) h2
  · rfl

theorem parseGo_top_obj_cons (F : Nat) (c : Char) (Y : List Char)
    (h1 : isJsonWs c = false) (h2 : ¬c = '}') :
    parseGo (F + 1) .top ('{' :: (c :: Y))
      = (parseGo F .entries (c :: Y)).map (fun p => (JVal.obj (objFromPairs p.1), p.2)) := by
  rw [parseGo_top_lbrace, skipWs_notws Y h1]
  split
  · rename_i heq
    exact absurd (List.head_eq_of_cons_eq heq) h2
  · rfl

theorem jc_split (s : String) (t : List String) :
    ∃ X, (joinComma (s :: t)).data = s.data ++ X := by
  cases t with
  | nil => exact ⟨[], by rw [joinComma_one]; simp⟩
  | cons b t2 => exact ⟨',' :: ' ' :: (joinComma (b :: t2)).data, data_joinComma_cons2 s b t2⟩

theorem len_render_arr (l : List JVal) :
    (render (.arr l)).data.length = (joinComma (l.map render)).data.length + 2 := by
  rw [data_render_arr]
  simp

theorem len_render_obj (l : List (String × JVal)) :
    (render (.obj l)).data.length
      = (joinComma (l.map fun p => renderStr p.1 ++ ": " ++ render p.2)).data.length + 2 := by
  rw [data_render_obj]
  simp

theorem len_jc_cons2 (a b : String) (t : List String) :
    (joinComma (a :: b :: t)).data.length
      = a.data.length + 2 + (joinComma (b :: t)).data.length := by
  rw [data_joinComma_cons2]
  simp
  omega

theorem len_entry (k : String) (v : JVal) :
    (renderStr k ++ ": " ++ render v).data.length
      = (escList k.data).length + (render v).data.length + 4 := by
  rw [data_entry]
  simp
  omega

/-- Rendered text of a well-formed value parses back to exactly that value,
in each scanner mode, given enough fuel. -/
theorem parse_render_all : ∀ F : Nat,
    (∀ (w : JVal) (rest : List Char), Wf w → numStop rest →
      (render w).data.length + 1 ≤ F →
      parseGo F .top ((render w).data ++ rest) = some (w, rest)) ∧
    (∀ (l : List JVal) (rest : List Char), (∀ v ∈ l, Wf v) → l ≠ [] →
      (joinComma (l.map render)).data.length + 2 ≤ F →
      parseGo F .elems ((joinComma (l.map render)).data ++ ']' :: rest) = some (l, rest)) ∧
    (∀ (l : List (String × JVal)) (rest : List Char), (∀ p ∈ l, Wf p.2) → l ≠ [] →
      (joinComma (l.map fun p => renderStr p.1 ++ ": " ++ render p.2)).data.length + 2 ≤ F →
      parseGo F .entries
          ((joinComma (l.map fun p => renderStr p.1 ++ ": " ++ render p.2)).data ++ '}' :: rest)
        = some (l, rest)) := by
  intro F
  induction F using Nat.strong_induction_on with
  | _ F IH =>
  refine ⟨?_, ?_, ?_⟩
  · -- top mode
    intro w rest hwf hstop hF
    cases F with
    | zero => omega
    | succ F =>
      cases w with
      | null =>
        rw [render_null]
        exact parseGo_top_null F rest
      | bool b =>
        cases b with
        | false =>
          rw [render_bool]
          exact parseGo_top_false F rest
        | true =>
          rw [render_bool]
          exact parseGo_top_true F rest
      | str s =>
        rw [render_str]
        have hshape : (renderStr s).data ++ rest = '"' :: (escList s.data ++ '"' :: rest) := by
          rw [data_renderStr]
          simp [List.append_assoc]
        have hfuel : s.data.length < (escList s.data ++ '"' :: rest).length + 1 := by
          have := escList_len s.data
          simp only [List.length_append, List.length_cons]
          omega
        rw [hshape, parseGo_top_quote, parseStr_escList s.data rest _ hfuel]
        rfl
      | int n =>
        rw [render_int]
        obtain ⟨c, cs, hd, hc⟩ := intStr_head n
        have excl : ¬c = '"' ∧ ¬c = '{' ∧ ¬c = '[' ∧ ¬c = 'n' ∧ ¬c = 't' ∧ ¬c = 'f' := by
          rcases hc with h | h
          · subst h
            exact ⟨by decide, by decide, by decide, by decide, by decide, by decide⟩
          · exact digit_excl2 c h
        have hnum := parseNumber_int n rest hstop
        rw [hd, List.cons_append] at hnum ⊢
        exact parseGo_top_num F c (cs ++ rest) excl.1 excl.2.1 excl.2.2.1 excl.2.2.2.1
          excl.2.2.2.2.1 excl.2.2.2.2.2 (.int n) rest hnum
      | float f =>
        rw [render_float]
        cases f with
        | nan => exact parseGo_top_nanlit F rest
        | inf => exact parseGo_top_inflit F rest
        | ninf => exact parseGo_top_ninflit F rest
        | fin neg ip fp ex =>
          have hok : pyFloatOk (.fin neg ip fp ex) = true := by
            cases hwf with
            | float _ h => exact h
          obtain ⟨h1, -, -, -⟩ := pyFloatOk_parts hok
          obtain ⟨c, cs, hip, hcd, -⟩ := ipOk_cons h1
          have hnum := parseNumber_float neg ip fp ex hok rest hstop
          cases neg with
          | false =>
            have heq : floatChars (.fin false ip fp ex) ++ rest
                = c :: (cs ++ (fracChars fp ++ (expChars ex ++ rest))) := by
              show (([] : List Char) ++ ip ++ fracChars fp ++ expChars ex) ++ rest = _
              rw [hip]
              simp [List.append_assoc]
            rw [heq] at hnum
            show parseGo (F + 1) .top (floatChars (.fin false ip fp ex) ++ rest)
              = some (.float (.fin false ip fp ex), rest)
            rw [heq]
            obtain ⟨e1, e2, e3, e4, e5, e6⟩ := digit_excl2 c hcd
            exact parseGo_top_num F c _ e1 e2 e3 e4 e5 e6 _ _ hnum
          | true =>
            have heq : floatChars (.fin true ip fp ex) ++ rest
                = '-' :: (ip ++ (fracChars fp ++ (expChars ex ++ rest))) := by
              show ((['-'] : List Char) ++ ip ++ fracChars fp ++ expChars ex) ++ rest = _
              simp [List.append_assoc]
            rw [heq] at hnum
            show parseGo (F + 1) .top (floatChars (.fin true ip fp ex) ++ rest)
              = some (.float (.fin true ip fp ex), rest)
            rw [heq]
            exact parseGo_top_num F '-' _ (by decide) (by decide) (by decide) (by decide)
              (by decide) (by decide) _ _ hnum
      | arr l =>
        cases l with
        | nil =>
          have hsh : (render (JVal.arr [])).data ++ rest = '[' :: ']' :: rest := by
            rw [data_render_arr]
            rfl
          rw [hsh, parseGo_top_lbrack]
          rfl
        | cons v t =>
          have hwv : ∀ x ∈ v :: t, Wf x := by
            cases hwf with
            | arr _ h => exact h
          have hsh : (render (JVal.arr (v :: t))).data ++ rest
              = '[' :: ((joinComma (render v :: t.map render)).data ++ ']' :: rest) := by
            rw [data_render_arr]
            simp [List.append_assoc]
          rw [hsh]
          obtain ⟨X, hX⟩ := jc_split (render v) (t.map render)
          obtain ⟨c, cs, hcd, hok⟩ := render_head v (hwv v (by simp))
          obtain ⟨hws, hnb, -, -⟩ := headOk_facts c hok
          have hsh2 : (joinComma (render v :: t.map render)).data ++ ']' :: rest
              = c :: (cs ++ (X ++ ']' :: rest)) := by
            rw [hX, hcd]
            simp [List.append_assoc]
          rw [hsh2, parseGo_top_arr_cons F c _ hws hnb, ← hsh2]
          have hfe : (joinComma ((v :: t).map render)).data.length + 2 ≤ F := by
            have h1 := len_render_arr (v :: t)
            simp only [List.map_cons] at h1
            simp only [List.map_cons]
            omega
          have helems := (IH F (Nat.lt_succ_self F)).2.1 (v :: t) rest hwv (by simp) hfe
          simp only [List.map_cons] at helems
          rw [helems]
          rfl
      | obj l =>
        cases l with
        | nil =>
          have hsh : (render (JVal.obj [])).data ++ rest = '{' :: '}' :: rest := by
            rw [data_render_obj]
            rfl
          rw [hsh, parseGo_top_lbrace]
          rfl
        | cons p t =>
          have hnd : (((p :: t).map Prod.fst).Nodup) := by
            cases hwf with
            | obj _ h _ => exact h
          have hwp : ∀ x ∈ p :: t, Wf x.2 := by
            cases hwf with
            | obj _ _ h => exact h
          have hsh : (render (JVal.obj (p :: t))).data ++ rest
              = '{' :: ((joinComma ((renderStr p.1 ++ ": " ++ render p.2)
                  :: t.map fun q => renderStr q.1 ++ ": " ++ render q.2)).data ++ '}' :: rest) := by
            rw [data_render_obj]
            simp [List.append_assoc]
          rw [hsh]
          obtain ⟨X, hX⟩ := jc_split (renderStr p.1 ++ ": " ++ render p.2)
            (t.map fun q => renderStr q.1 ++ ": " ++ render q.2)
          have hsh2 : (joinComma ((renderStr p.1 ++ ": " ++ render p.2)
                :: t.map fun q => renderStr q.1 ++ ": " ++ render q.2)).data ++ '}' :: rest
              = '"' :: ((escList p.1.data ++ '"' :: ':' :: ' ' :: (render p.2).data)
                  ++ (X ++ '}' :: rest)) := by
            rw [hX, data_entry]
            simp [List.append_assoc]
          rw [hsh2, parseGo_top_obj_cons F '"' _ (by decide) (by decide), ← hsh2]
          have hfe : (joinComma ((p :: t).map fun q
              => renderStr q.1 ++ ": " ++ render q.2)).data.length + 2 ≤ F := by
            have h1 := len_render_obj (p :: t)
            simp only [List.map_cons] at h1
            simp only [List.map_cons]
            omega
          have hents := (IH F (Nat.lt_succ_self F)).2.2 (p :: t) rest hwp (by simp) hfe
          simp only [List.map_cons] at hents
          rw [hents]
          show some (JVal.obj (objFromPairs (p :: t)), rest) = some (JVal.obj (p :: t), rest)
          rw [objFromPairs_self _ hnd]
  · -- elems mode
    intro l rest hwl hne hF
    cases F with
    | zero => omega
    | succ F =>
      cases l with
      | nil => exact absurd rfl hne
      | cons v t =>
        rw [parseGo_elems_step]
        simp only [List.map_cons] at hF ⊢
        cases t with
        | nil =>
          simp only [List.map_nil, joinComma_one] at hF ⊢
          have htop := (IH F (Nat.lt_succ_self F)).1 v (']' :: rest) (hwl v (by simp))
            (Or.inr (Or.inl rfl)) (by omega)
          rw [htop]
          rfl
        | cons b t2 =>
          simp only [List.map_cons] at hF ⊢
          have h1 := len_jc_cons2 (render v) (render b) (t2.map render)
          have hsh : (joinComma (render v :: render b :: t2.map render)).data ++ ']' :: rest
              = (render v).data
                  ++ (',' :: ' ' :: ((joinComma (render b :: t2.map render)).data
                      ++ ']' :: rest)) := by
            rw [data_joinComma_cons2]
            simp [List.append_assoc]
          rw [hsh]
          have htop := (IH F (Nat.lt_succ_self F)).1 v
            (',' :: ' ' :: ((joinComma (render b :: t2.map render)).data ++ ']' :: rest))
            (hwl v (by simp)) (Or.inl rfl) (by omega)
          rw [htop]
          show (parseGo F .elems
              (skipWs (' ' :: ((joinComma (render b :: t2.map render)).data ++ ']' :: rest)))).map
              (fun q => (v :: q.1, q.2)) = some (v :: b :: t2, rest)
          rw [skipWs_space]
          obtain ⟨X, hX⟩ := jc_split (render b) (t2.map render)
          obtain ⟨c, cs, hcd, hok⟩ := render_head b (hwl b (by simp))
          obtain ⟨hws, -, -, -⟩ := headOk_facts c hok
          have hW : (joinComma (render b :: t2.map render)).data ++ ']' :: rest
              = c :: (cs ++ (X ++ ']' :: rest)) := by
            rw [hX, hcd]
            simp [List.append_assoc]
          rw [hW, skipWs_notws _ hws, ← hW]
          have helems := (IH F (Nat.lt_succ_self F)).2.1 (b :: t2) rest
            (fun x hx => hwl x (by simp [hx])) (by simp) (by simp only [List.map_cons]; omega)
          simp only [List.map_cons] at helems
          rw [helems]
          rfl
  · -- entries mode
    intro l rest hwl hne hF
    cases F with
    | zero => omega
    | succ F =>
      cases l with
      | nil => exact absurd rfl hne
      | cons p t =>
        obtain ⟨k, v⟩ := p
        simp only [List.map_cons] at hF ⊢
        have hlen1 := len_entry k v
        obtain ⟨c, cs, hcd, hok⟩ := render_head v (hwl (k, v) (by simp))
        obtain ⟨hws, -, -, -⟩ := headOk_facts c hok
        cases t with
        | nil =>
          simp only [List.map_nil, joinComma_one] at hF ⊢
          have hsh : (renderStr k ++ ": " ++ render v).data ++ '}' :: rest
              = '"' :: (escList k.data ++ '"' :: ':' :: ' ' :: ((render v).data ++ '}' :: rest)) := by
            rw [data_entry]
            simp [List.append_assoc]
          rw [hsh, parseGo_entries_quote]
          have hf1 : k.data.length
              < (escList k.data
                  ++ '"' :: ':' :: ' ' :: ((render v).data ++ '}' :: rest)).length + 1 := by
            have := escList_len k.data
            simp only [List.length_append, List.length_cons]
            omega
          have hkey := parseStr_escList k.data
            (':' :: ' ' :: ((render v).data ++ '}' :: rest)) _ hf1
          rw [hkey]
          show (match parseGo F .top (skipWs (' ' :: ((render v).data ++ '}' :: rest))) with
               | none => none
               | some pv =>
                 match skipWs pv.2 with
                 | ',' :: r3 =>
                   (parseGo F .entries (skipWs r3)).map
                     (fun q => ((k, pv.1) :: q.1, q.2))
                 | '}' :: r3 => some ([(k, pv.1)], r3)
                 | _ => none) = some ([(k, v)], rest)
          rw [skipWs_space]
          have hV : (render v).data ++ '}' :: rest = c :: (cs ++ '}' :: rest) := by
            rw [hcd, List.cons_append]
          rw [hV, skipWs_notws _ hws, ← hV]
          have htop := (IH F (Nat.lt_succ_self F)).1 v ('}' :: rest) (hwl (k, v) (by simp))
            (Or.inr (Or.inr rfl)) (by omega)
          rw [htop]
          rfl
        | cons p2 t2 =>
          simp only [List.map_cons] at hF ⊢
          have h1 := len_jc_cons2 (renderStr k ++ ": " ++ render v)
            (renderStr p2.1 ++ ": " ++ render p2.2)
            (t2.map fun q => renderStr q.1 ++ ": " ++ render q.2)
          have hsh : (joinComma ((renderStr k ++ ": " ++ render v)
                :: (renderStr p2.1 ++ ": " ++ render p2.2)
                :: t2.map fun q => renderStr q.1 ++ ": " ++ render q.2)).data ++ '}' :: rest
              = '"' :: (escList k.data ++ '"' :: ':' :: ' ' :: ((render v).data
                  ++ ',' :: ' ' :: ((joinComma ((renderStr p2.1 ++ ": " ++ render p2.2)
                      :: t2.map fun q => renderStr q.1 ++ ": " ++ render q.2)).data
                      ++ '}' :: rest))) := by
            rw [data_joinComma_cons2, data_entry]
            simp [List.append_assoc]
          rw [hsh, parseGo_entries_quote]
          have hf1 : k.data.length
              < (escList k.data
                  ++ '"' :: ':' :: ' ' :: ((render v).data
                    ++ ',' :: ' ' :: ((joinComma ((renderStr p2.1 ++ ": " ++ render p2.2)
                        :: t2.map fun q => renderStr q.1 ++ ": " ++ render q.2)).data
                        ++ '}' :: rest))).length + 1 := by
            have := escList_len k.data
            simp only [List.length_append, List.length_cons]
            omega
          have hkey := parseStr_escList k.data
            (':' :: ' ' :: ((render v).data
              ++ ',' :: ' ' :: ((joinComma ((renderStr p2.1 ++ ": " ++ render p2.2)
                  :: t2.map fun q => renderStr q.1 ++ ": " ++ render q.2)).data ++ '}' :: rest))) _
            hf1
          rw [hkey]
          show (match parseGo F .top (skipWs (' ' :: ((render v).data
                ++ ',' :: ' ' :: ((joinComma ((renderStr p2.1 ++ ": " ++ render p2.2)
                    :: t2.map fun q => renderStr q.1 ++ ": " ++ render q.2)).data
                    ++ '}' :: rest)))) with
               | none => none
               | some pv =>
                 match skipWs pv.2 with
                 | ',' :: r3 =>
                   (parseGo F .entries (skipWs r3)).map
                     (fun q => ((k, pv.1) :: q.1, q.2))
                 | '}' :: r3 => some ([(k, pv.1)], r3)
                 | _ => none) = some ((k, v) :: p2 :: t2, rest)
          rw [skipWs_space]
          have hV : (render v).data
                ++ ',' :: ' ' :: ((joinComma ((renderStr p2.1 ++ ": " ++ render p2.2)
                    :: t2.map fun q => renderStr q.1 ++ ": " ++ render q.2)).data ++ '}' :: rest)
              = c :: (cs ++ ',' :: ' ' :: ((joinComma ((renderStr p2.1 ++ ": " ++ render p2.2)
                    :: t2.map fun q => renderStr q.1 ++ ": " ++ render q.2)).data
                    ++ '}' :: rest)) := by
            rw [hcd, List.cons_append]
          rw [hV, skipWs_notws _ hws, ← hV]
          have htop := (IH F (Nat.lt_succ_self F)).1 v
            (',' :: ' ' :: ((joinComma ((renderStr p2.1 ++ ": " ++ render p2.2)
                :: t2.map fun q => renderStr q.1 ++ ": " ++ render q.2)).data ++ '}' :: rest))
            (hwl (k, v) (by simp)) (Or.inl rfl) (by omega)
          rw [htop]
          show (parseGo F .entries (skipWs (' '
              :: ((joinComma ((renderStr p2.1 ++ ": " ++ render p2.2)
                  :: t2.map fun q => renderStr q.1 ++ ": " ++ render q.2)).data
                  ++ '}' :: rest)))).map (fun q => ((k, v) :: q.1, q.2))
              = some ((k, v) :: p2 :: t2, rest)
          rw [skipWs_space]
          obtain ⟨X2, hX2⟩ := jc_split (renderStr p2.1 ++ ": " ++ render p2.2)
            (t2.map fun q => renderStr q.1 ++ ": " ++ render q.2)
          have hW : (joinComma ((renderStr p2.1 ++ ": " ++ render p2.2)
                :: t2.map fun q => renderStr q.1 ++ ": " ++ render q.2)).data ++ '}' :: rest
              = '"' :: ((escList p2.1.data ++ '"' :: ':' :: ' ' :: (render p2.2).data)
                  ++ (X2 ++ '}' :: rest)) := by
            rw [hX2, data_entry]
            simp [List.append_assoc]
          rw [hW, skipWs_notws _ (by decide), ← hW]
          have hents := (IH F (Nat.lt_succ_self F)).2.2 (p2 :: t2) rest
            (fun x hx => hwl x (by simp [hx])) (by simp)
            (by simp only [List.map_cons]; omega)
          simp only [List.map_cons] at hents
          rw [hents]
          rfl

theorem skipWs_render (w : JVal) (hw : Wf w) : skipWs (render w).data = (render w).data := by
  obtain ⟨c, cs, hcd, hok⟩ := render_head w hw
  obtain ⟨hws, -, -, -⟩ := headOk_facts c hok
  rw [hcd, skipWs_notws _ hws]

/-- Decoding an encoded well-formed value yields its canonical form. -/
theorem decode_encode {v : JVal} (h : Wf v) : _decode (_encode v) = some (canon v) := by
  have hw : Wf (canon v) := canon_wf h
  have hmain := (parse_render_all (2 * (render (canon v)).data.length + 2)).1 (canon v) [] hw
    trivial (by omega)
  rw [List.append_nil] at hmain
  show (match parseGo (2 * (skipWs (render (canon v)).data).length + 2) .top
          (skipWs (render (canon v)).data) with
        | some p => if skipWs p.2 = [] then some p.1 else none
        | none => none) = some (canon v)
  rw [skipWs_render (canon v) hw, hmain]
  rfl

/-- C9 (amended): for every JSON-representable value of the embedded model
(string, integer, float, boolean, null, list, or string-keyed mapping,
nested) that contains no `NaN`, decoding the encoding of `v` yields a value
equal to `v` in the sense of Python `==` (equality up to reordering of
mapping entries at every nesting level); for a value containing `NaN` the
decode still succeeds but the result is not `==`-equal, since `nan != nan`.
Encoding is canonical: two values equal in the `==` sense encode to the
identical string. -/
theorem claim_C9_amended (v w : JVal) (hv : Wf v) (hnf : NanFree v) (hw : Wf w) :
    (∃ u, _decode (_encode v) = some u ∧ KeyPermEq v u) ∧
    (KeyPermEq v w → _encode v = _encode w) := by
  constructor
  · exact ⟨canon v, decode_encode hv, keyPermEq_canon v hnf⟩
  · intro hk
    show render (canon v) = render (canon w)
    rw [canon_eq_of_keyPermEq hv hk]

/-- C9 counterexample: at `v = float('nan')` the round trip produces a
value (`json.dumps` writes `NaN`, `json.loads` reads a fresh `nan` back),
but that value is not `==`-equal to `v`, because `nan != nan`; so decoding
the encoding of a JSON-representable float does not always yield a value
equal to it. -/
theorem claim_C9_counterexample :
    _decode (_encode (JVal.float .nan)) = some (JVal.float .nan) ∧
    ¬KeyPermEq (JVal.float .nan) (JVal.float .nan) := by
  constructor
  · show _decode (render (canon (JVal.float .nan))) = some (JVal.float .nan)
    rw [canon_float, render_float]
    rfl
  · intro h
    cases h with
    | flt _ hne => exact hne rfl

theorem claim_C9_witness :
    Wf (JVal.obj [("b", .float (.fin false ['1'] ['5'] none)), ("a", .arr [.str "x"])]) ∧
    NanFree (JVal.obj [("b", .float (.fin false ['1'] ['5'] none)), ("a", .arr [.str "x"])]) ∧
    Wf (JVal.obj [("a", .arr [.str "x"]), ("b", .float (.fin false ['1'] ['5'] none))]) ∧
    ((∃ u, _decode (_encode (JVal.obj [("b", .float (.fin false ['1'] ['5'] none)),
          ("a", .arr [.str "x"])])) = some u ∧
        KeyPermEq (JVal.obj [("b", .float (.fin false ['1'] ['5'] none)),
          ("a", .arr [.str "x"])]) u) ∧
      (KeyPermEq (JVal.obj [("b", .float (.fin false ['1'] ['5'] none)), ("a", .arr [.str "x"])])
          (JVal.obj [("a", .arr [.str "x"]), ("b", .float (.fin false ['1'] ['5'] none))]) →
        _encode (JVal.obj [("b", .float (.fin false ['1'] ['5'] none)), ("a", .arr [.str "x"])])
          = _encode (JVal.obj [("a", .arr [.str "x"]),
              ("b", .float (.fin false ['1'] ['5'] none))]))) := by
  have h1 : Wf (JVal.obj [("b", .float (.fin false ['1'] ['5'] none)), ("a", .arr [.str "x"])]) := by
    refine Wf.obj _ (by decide) ?_
    intro p hp
    simp at hp
    rcases hp with hp | hp <;> subst hp
    · exact Wf.float _ (by decide)
    · exact Wf.arr _ (by intro x hx; simp at hx; subst hx; exact Wf.str "x")
  have h2 : NanFree (JVal.obj [("b", .float (.fin false ['1'] ['5'] none)),
      ("a", .arr [.str "x"])]) := by
    refine NanFree.obj _ ?_
    intro p hp
    simp at hp
    rcases hp with hp | hp <;> subst hp
    · exact NanFree.float _ (by intro h; cases h)
    · exact NanFree.arr _ (by intro x hx; simp at hx; subst hx; exact NanFree.str "x")
  have h3 : Wf (JVal.obj [("a", .arr [.str "x"]), ("b", .float (.fin false ['1'] ['5'] none))]) := by
    refine Wf.obj _ (by decide) ?_
    intro p hp
    simp at hp
    rcases hp with hp | hp <;> subst hp
    · exact Wf.arr _ (by intro x hx; simp at hx; subst hx; exact Wf.str "x")
    · exact Wf.float _ (by decide)
  exact ⟨h1, h2, h3, claim_C9_amended _ _ h1 h2 h3⟩
